import Mathlib

/-!
Verification of the byexample core against its natural-language specification.

The Python sources under `byexample/` are shallowly embedded: each Python
function used by a claim is translated into an executable Lean definition
(stateful code becomes explicit state passing, fallible code returns
`Except`/`Option`), and the claims are settled as theorems about those
definitions.  Components of the repository whose code is not available
(`parser_sm.py`, `options.py`, the `pexpect`/`pyte` libraries) are modelled
from the specification text; their doc comments say so explicitly.
-/

namespace Byexample

/-! ## `finder.Where` (finder.py, class Where)

Line numbers are Python integers; we embed them as `Int`. -/

structure Where where
  start_lineno : Int
  end_lineno : Int
  filepath : String
  zdelimiter : Option String
deriving Repr, DecidableEq

/-! ## Examples as seen by the overlap arbiter (finder.py, class Example)

`check_example_overlap` inspects only `start_lineno` and `end_lineno` of each
example; the other attributes (finder, runner, parser, snippet, ...) are
opaque to it, so the embedding keeps just the line span. -/

structure OvExample where
  start_lineno : Int
  end_lineno : Int
deriving Repr, DecidableEq

/-- finder.py:313 — `collision_type_1 = prev.start_lineno == example.start_lineno` -/
def collision_type_1 (prev curr : OvExample) : Bool :=
  prev.start_lineno == curr.start_lineno

/-- finder.py:314-315 — `collision_type_2 = not collision_type_1 and
(example.end_lineno <= prev.end_lineno)` -/
def collision_type_2 (prev curr : OvExample) : Bool :=
  !collision_type_1 prev curr && decide (curr.end_lineno ≤ prev.end_lineno)

/-- finder.py:316-318 — `collision_type_3 = not collision_type_1 and not
collision_type_2 and example.start_lineno <= prev.end_lineno` -/
def collision_type_3 (prev curr : OvExample) : Bool :=
  !collision_type_1 prev curr && !collision_type_2 prev curr &&
    decide (curr.start_lineno ≤ prev.end_lineno)

/-- finder.py:320 — `any_collision = collision_type_1 or collision_type_2 or
collision_type_3` -/
def any_collision (prev curr : OvExample) : Bool :=
  collision_type_1 prev curr || collision_type_2 prev curr || collision_type_3 prev curr

/-- Result of one scan pass of the `for` loop inside `check_example_overlap`:
either the pass finds no collision, or it deletes index `i` (Type 2) and
restarts, or it raises `ValueError` (Type 1 / Type 3). -/
inductive ScanResult where
  | clean : ScanResult
  | drop (i : Nat) : ScanResult
  | fatal : ScanResult
deriving Repr, DecidableEq

/-- finder.py:311-347 — the inner `for i, example in enumerate(examples[1:], 1)`
loop of `check_example_overlap`.  `prev` starts as `examples[0]` and is
advanced only on collision-free steps; on the first collision the loop either
deletes index `i` (Type 2, followed by `break`) or raises (Type 1 / Type 3). -/
def scanPass (prev : OvExample) (i : Nat) : List OvExample → ScanResult
  | [] => .clean
  | e :: rest =>
    if collision_type_1 prev e then .fatal
    else if collision_type_2 prev e then .drop i
    else if collision_type_3 prev e then .fatal
    else scanPass e (i + 1) rest

theorem scanPass_drop_bounds :
    ∀ (rest : List OvExample) (prev : OvExample) (i j : Nat),
      scanPass prev i rest = .drop j → i ≤ j ∧ j - i < rest.length := by
  intro rest
  induction rest with
  | nil => intro prev i j h; simp [scanPass] at h
  | cons e rest ih =>
    intro prev i j h
    simp only [scanPass] at h
    split at h
    · simp at h
    · split at h
      · cases h
        exact ⟨le_refl _, by simp⟩
      · split at h
        · simp at h
        · obtain ⟨h1, h2⟩ := ih e (i + 1) j h
          refine ⟨by omega, by simp; omega⟩

/-- finder.py:305-347 — the outer `while not collision_free` loop of
`check_example_overlap`.  A Type 2 collision deletes the inner example and
restarts the scan; Type 1 / Type 3 raise `ValueError` (embedded as
`.error ()`); a clean pass returns the list. -/
def check_example_overlap (examples : List OvExample) : Except Unit (List OvExample) :=
  match hm : examples with
  | [] => .ok []
  | prev :: rest =>
    match hs : scanPass prev 1 rest with
    | .clean => .ok examples
    | .fatal => .error ()
    | .drop i => check_example_overlap (examples.eraseIdx i)
termination_by examples.length
decreasing_by
  have hb := scanPass_drop_bounds rest prev 1 i hs
  rw [hm]
  have hlt : i < (prev :: rest).length := by
    simp only [List.length_cons]; omega
  have h2 := List.length_eraseIdx_add_one hlt
  omega

/-- Same loop, but counting outer passes with explicit fuel; `none` means the
fuel ran out before the loop finished. -/
def check_example_overlap_fueled (fuel : Nat) (examples : List OvExample) :
    Option (Except Unit (List OvExample)) :=
  match fuel with
  | 0 => none
  | fuel + 1 =>
    match examples with
    | [] => some (.ok [])
    | prev :: rest =>
      match scanPass prev 1 rest with
      | .clean => some (.ok examples)
      | .fatal => some (.error ())
      | .drop i => check_example_overlap_fueled fuel (examples.eraseIdx i)

/-- Sort key used by `get_examples_from_string` (finder.py:235):
`(start_lineno ascending, end_lineno descending)` as a boolean total preorder. -/
def exampleLe (a b : OvExample) : Bool :=
  decide (a.start_lineno < b.start_lineno) ||
    (a.start_lineno == b.start_lineno && decide (b.end_lineno ≤ a.end_lineno))

/-- The propositional form of `exampleLe`. -/
def ExampleLeP (a b : OvExample) : Prop :=
  a.start_lineno < b.start_lineno ∨
    (a.start_lineno = b.start_lineno ∧ b.end_lineno ≤ a.end_lineno)

theorem exampleLe_iff (a b : OvExample) : exampleLe a b = true ↔ ExampleLeP a b := by
  simp [exampleLe, ExampleLeP]

instance (a b : OvExample) : Decidable (ExampleLeP a b) := by
  unfold ExampleLeP; infer_instance

/-- finder.py:196-239 — the tail of `get_examples_from_string`: sort all
harvested examples by `(start_lineno, -end_lineno)` and run the overlap
arbiter.  The zone splitting and regex harvesting that produce the raw list
are external to this function. -/
def sort_and_check_overlap (examples : List OvExample) : Except Unit (List OvExample) :=
  check_example_overlap (examples.mergeSort exampleLe)

theorem scanPass_clean_chain :
    ∀ (rest : List OvExample) (prev : OvExample) (i : Nat),
      scanPass prev i rest = .clean →
      List.Chain' (fun a b => any_collision a b = false) (prev :: rest) := by
  intro rest
  induction rest with
  | nil => intro prev i _; simp
  | cons e rest ih =>
    intro prev i h
    simp only [scanPass] at h
    split at h
    · cases h
    · split at h
      · cases h
      · split at h
        · cases h
        · rename_i h1 h2 h3
          have hchain := ih e (i + 1) h
          refine List.Chain'.cons ?_ hchain
          simp only [any_collision, Bool.or_eq_false_iff]
          exact ⟨⟨by simpa using h1, by simpa using h2⟩, by simpa using h3⟩

theorem scanPass_drop_pair :
    ∀ (rest : List OvExample) (prev : OvExample) (i j : Nat),
      scanPass prev i rest = .drop j →
      ∃ (k : Nat) (p curr : OvExample), j = i + k ∧ (prev :: rest)[k]? = some p ∧
        rest[k]? = some curr ∧ collision_type_2 p curr = true := by
  intro rest
  induction rest with
  | nil => intro prev i j h; simp [scanPass] at h
  | cons e rest ih =>
    intro prev i j h
    simp only [scanPass] at h
    split at h
    · cases h
    · split at h
      · rename_i h2
        cases h
        exact ⟨0, prev, e, by omega, by simp, by simp, h2⟩
      · split at h
        · cases h
        · obtain ⟨k, p, curr, hj, hp, hc, h2⟩ := ih e (i + 1) j h
          refine ⟨k + 1, p, curr, ?_, ?_, ?_, h2⟩
          · omega
          · simpa using hp
          · simpa using hc

theorem scanPass_fatal_pair :
    ∀ (rest : List OvExample) (prev : OvExample) (i : Nat),
      scanPass prev i rest = .fatal →
      ∃ (k : Nat) (p curr : OvExample), (prev :: rest)[k]? = some p ∧
        rest[k]? = some curr ∧
        (collision_type_1 p curr || collision_type_3 p curr) = true := by
  intro rest
  induction rest with
  | nil => intro prev i h; simp [scanPass] at h
  | cons e rest ih =>
    intro prev i h
    simp only [scanPass] at h
    split at h
    · rename_i h1
      exact ⟨0, prev, e, by simp, by simp, by simp [h1]⟩
    · split at h
      · cases h
      · split at h
        · rename_i h3
          exact ⟨0, prev, e, by simp, by simp, by simp [h3]⟩
        · obtain ⟨k, p, curr, hp, hc, h13⟩ := ih e (i + 1) h
          refine ⟨k + 1, p, curr, ?_, ?_, h13⟩
          · simpa using hp
          · simpa using hc

theorem mem_of_ne_eraseIdx {l : List OvExample} {e : OvExample} {j : Nat}
    (hj : j < l.length) (he : e ∈ l) (hne : e ∉ l.eraseIdx j) : l[j] = e := by
  rw [List.eraseIdx_eq_take_drop_succ] at hne
  have hdecomp : l = l.take j ++ l.drop j := (List.take_append_drop j l).symm
  have hdrop : l.drop j = l[j] :: l.drop (j + 1) := List.drop_eq_getElem_cons hj
  rw [hdecomp, hdrop] at he
  simp only [List.mem_append, List.mem_cons] at he hne
  push_neg at hne
  rcases he with h | h | h
  · exact absurd h hne.1
  · exact h.symm
  · exact absurd h hne.2

theorem check_example_overlap_nil : check_example_overlap [] = .ok [] := by
  rw [check_example_overlap]

theorem check_example_overlap_cons (prev : OvExample) (rest : List OvExample) :
    check_example_overlap (prev :: rest) =
      match scanPass prev 1 rest with
      | .clean => .ok (prev :: rest)
      | .fatal => .error ()
      | .drop i => check_example_overlap ((prev :: rest).eraseIdx i) := by
  rw [check_example_overlap]
  cases hsr : scanPass prev 1 rest <;> rfl

/-- The three properties of the overlap arbiter needed by the claims, proved
together along the recursion structure of the loop: on success the result is a
sublist of the input with no adjacent collision, every removed example is
(under the sortedness precondition) strictly contained in a surviving input
example, and on failure some adjacent pair of the surviving state is a
Type 1 or Type 3 collision. -/
theorem check_example_overlap_spec (l : List OvExample) :
    (∀ l', check_example_overlap l = .ok l' →
      l'.Sublist l ∧ List.Chain' (fun a b => any_collision a b = false) l' ∧
      (List.Pairwise ExampleLeP l → ∀ e ∈ l, e ∉ l' →
        ∃ p ∈ l, p.start_lineno < e.start_lineno ∧ e.end_lineno ≤ p.end_lineno)) ∧
    (check_example_overlap l = .error () →
      ∃ l'' : List OvExample, l''.Sublist l ∧ ∃ (k : Nat) (p curr : OvExample),
        l''[k]? = some p ∧ l''[k + 1]? = some curr ∧
        (collision_type_1 p curr || collision_type_3 p curr) = true) := by
  induction l using check_example_overlap.induct with
  | case1 =>
    rw [check_example_overlap_nil]
    constructor
    · intro l' h
      cases h
      exact ⟨List.Sublist.refl _, by simp, by simp⟩
    · intro h; cases h
  | case2 prev rest hs =>
    have heq : check_example_overlap (prev :: rest) = .ok (prev :: rest) := by
      rw [check_example_overlap_cons, hs]
    rw [heq]
    constructor
    · intro l' h
      cases h
      refine ⟨List.Sublist.refl _, scanPass_clean_chain rest prev 1 hs, ?_⟩
      intro _ e he hne
      exact absurd he hne
    · intro h; cases h
  | case3 prev rest hs =>
    have heq : check_example_overlap (prev :: rest) = .error () := by
      rw [check_example_overlap_cons, hs]
    rw [heq]
    constructor
    · intro l' h; cases h
    · intro _
      obtain ⟨k, p, curr, hp, hc, h13⟩ := scanPass_fatal_pair rest prev 1 hs
      refine ⟨prev :: rest, List.Sublist.refl _, k, p, curr, ?_, ?_, h13⟩
      · exact hp
      · simpa using hc
  | case4 prev rest i hs ih =>
    have heq : check_example_overlap (prev :: rest) =
        check_example_overlap ((prev :: rest).eraseIdx i) := by
      rw [check_example_overlap_cons, hs]
    rw [heq]
    obtain ⟨k, p, curr, hj, hp, hc, h2⟩ := scanPass_drop_pair rest prev 1 i hs
    have hklen : k < rest.length := (List.getElem?_eq_some_iff.mp hc).1
    have hjlen : i < (prev :: rest).length := by
      simp only [List.length_cons]; omega
    have hcurr_idx : (prev :: rest)[i]? = some curr := by
      rw [hj, Nat.add_comm 1 k]
      simpa using hc
    have hsub_erase : ((prev :: rest).eraseIdx i).Sublist (prev :: rest) :=
      List.eraseIdx_sublist _ i
    constructor
    · intro l' h
      obtain ⟨ihok, _⟩ := ih
      obtain ⟨hsub, hchain, hrem⟩ := ihok l' h
      refine ⟨hsub.trans hsub_erase, hchain, ?_⟩
      intro hsort e he hne
      by_cases hmem : e ∈ (prev :: rest).eraseIdx i
      · obtain ⟨q, hq, hlt, hle⟩ := hrem (hsort.sublist hsub_erase) e hmem hne
        exact ⟨q, hsub_erase.mem hq, hlt, hle⟩
      · -- the element removed in this pass is the Type 2 inner example
        have hgete : (prev :: rest)[i] = e := mem_of_ne_eraseIdx hjlen he hmem
        have hecurr : curr = e := by
          have hh := (List.getElem?_eq_getElem hjlen).symm.trans hcurr_idx
          have hh2 : (prev :: rest)[i] = curr := Option.some_inj.mp hh
          rw [hgete] at hh2
          exact hh2.symm
        have ht2 : p.start_lineno ≠ curr.start_lineno ∧ curr.end_lineno ≤ p.end_lineno := by
          have := h2
          simp [collision_type_2, collision_type_1] at this
          exact this
        obtain ⟨hplen, hpval⟩ := List.getElem?_eq_some_iff.mp hp
        have hpmem : p ∈ prev :: rest := hpval ▸ List.getElem_mem hplen
        refine ⟨p, hpmem, ?_, ?_⟩
        · have hpair : ExampleLeP p curr := by
            have hpw := List.pairwise_iff_getElem.mp hsort k i hplen hjlen (by omega)
            rw [hpval] at hpw
            obtain ⟨hclen, hcval⟩ := List.getElem?_eq_some_iff.mp hcurr_idx
            rw [hcval] at hpw
            exact hpw
          rcases hpair with hlt | ⟨heq2, _⟩
          · rw [← hecurr]; exact hlt
          · exact absurd heq2 ht2.1
        · rw [← hecurr]; exact ht2.2
    · intro h
      obtain ⟨_, iherr⟩ := ih
      obtain ⟨l'', hsub, rest'⟩ := iherr h
      exact ⟨l'', hsub.trans hsub_erase, rest'⟩

theorem check_example_overlap_fueled_eq (fuel : Nat) :
    ∀ (l : List OvExample), l.length < fuel →
      check_example_overlap_fueled fuel l = some (check_example_overlap l) := by
  induction fuel with
  | zero => intro l h; omega
  | succ fuel ih =>
    intro l hlen
    match hm : l with
    | [] => simp [check_example_overlap_fueled, check_example_overlap]
    | prev :: rest =>
      rw [check_example_overlap_fueled, check_example_overlap]
      match hs : scanPass prev 1 rest with
      | .clean => rfl
      | .fatal => rfl
      | .drop i =>
        have hb := scanPass_drop_bounds rest prev 1 i hs
        have hlt : i < (prev :: rest).length := by
          simp only [List.length_cons]; omega
        have h2 := List.length_eraseIdx_add_one hlt
        apply ih
        simp only [List.length_cons] at hlen h2 ⊢
        omega

theorem chain'_combine {α : Type} {R S T : α → α → Prop}
    (h : ∀ a b, R a b → S a b → T a b) :
    ∀ l : List α, List.Chain' R l → List.Chain' S l → List.Chain' T l
  | [], _, _ => List.chain'_nil
  | [_], _, _ => List.chain'_singleton _
  | a :: b :: t, hr, hs => by
    rw [List.chain'_cons] at hr hs ⊢
    exact ⟨h a b hr.1 hs.1, chain'_combine h (b :: t) hr.2 hs.2⟩

theorem exampleLe_trans (a b c : OvExample) :
    exampleLe a b = true → exampleLe b c = true → exampleLe a c = true := by
  simp only [exampleLe, Bool.or_eq_true, Bool.and_eq_true, decide_eq_true_eq, beq_iff_eq]
  intro h1 h2
  rcases h1 with h1 | ⟨h1e, h1d⟩ <;> rcases h2 with h2 | ⟨h2e, h2d⟩
  · exact Or.inl (h1.trans h2)
  · exact Or.inl (h2e ▸ h1)
  · exact Or.inl (h1e ▸ h2)
  · exact Or.inr ⟨h1e.trans h2e, h2d.trans h1d⟩

theorem exampleLe_total (a b : OvExample) :
    (exampleLe a b || exampleLe b a) = true := by
  simp only [exampleLe, Bool.or_eq_true, Bool.and_eq_true, decide_eq_true_eq, beq_iff_eq]
  omega

/-- C1: for every list of examples sorted by (start_lineno ascending,
end_lineno descending), the overlap arbiter terminates within
`length + 1` scan passes of at most `length` comparisons each (the O(n²)
bound), and either raises a fatal `ValueError` — in which case some adjacent
pair of the surviving sublist is a Type 1 or Type 3 collision — or returns a
sublist of its input whose adjacent pairs have no Type 1, Type 2 or Type 3
collision, every removed example being a contained inner example (strictly
later start_lineno, end_lineno not past the outer example's end_lineno). -/
theorem check_example_overlap_arbitration (l : List OvExample)
    (hsort : List.Pairwise ExampleLeP l) :
    check_example_overlap_fueled (l.length + 1) l = some (check_example_overlap l) ∧
    (∀ l', check_example_overlap l = .ok l' →
      l'.Sublist l ∧ List.Chain' (fun a b => any_collision a b = false) l' ∧
      (∀ e ∈ l, e ∉ l' →
        ∃ p ∈ l, p.start_lineno < e.start_lineno ∧ e.end_lineno ≤ p.end_lineno)) ∧
    (check_example_overlap l = .error () →
      ∃ l'' : List OvExample, l''.Sublist l ∧ ∃ (k : Nat) (p curr : OvExample),
        l''[k]? = some p ∧ l''[k + 1]? = some curr ∧
        (collision_type_1 p curr || collision_type_3 p curr) = true) := by
  obtain ⟨hok, herr⟩ := check_example_overlap_spec l
  refine ⟨check_example_overlap_fueled_eq (l.length + 1) l (by omega), ?_, herr⟩
  intro l' h
  obtain ⟨hsub, hchain, hrem⟩ := hok l' h
  exact ⟨hsub, hchain, hrem hsort⟩

/-- Closed witness for `check_example_overlap_arbitration`: the Collision 2
docstring scenario, examples at lines 1-5 and 2-3 (sorted input). -/
theorem check_example_overlap_arbitration_witness :
    List.Pairwise ExampleLeP
      [OvExample.mk 1 5, OvExample.mk 2 3] ∧
    (check_example_overlap_fueled
        ([OvExample.mk 1 5, OvExample.mk 2 3].length + 1)
        [OvExample.mk 1 5, OvExample.mk 2 3] =
        some (check_example_overlap [OvExample.mk 1 5, OvExample.mk 2 3]) ∧
      (∀ l', check_example_overlap [OvExample.mk 1 5, OvExample.mk 2 3] = .ok l' →
        l'.Sublist [OvExample.mk 1 5, OvExample.mk 2 3] ∧
        List.Chain' (fun a b => any_collision a b = false) l' ∧
        (∀ e ∈ [OvExample.mk 1 5, OvExample.mk 2 3], e ∉ l' →
          ∃ p ∈ [OvExample.mk 1 5, OvExample.mk 2 3],
            p.start_lineno < e.start_lineno ∧ e.end_lineno ≤ p.end_lineno)) ∧
      (check_example_overlap [OvExample.mk 1 5, OvExample.mk 2 3] = .error () →
        ∃ l'' : List OvExample, l''.Sublist [OvExample.mk 1 5, OvExample.mk 2 3] ∧
          ∃ (k : Nat) (p curr : OvExample),
            l''[k]? = some p ∧ l''[k + 1]? = some curr ∧
            (collision_type_1 p curr || collision_type_3 p curr) = true)) :=
  ⟨by decide, check_example_overlap_arbitration _ (by decide)⟩

/-- C9: the example list returned by the harvester — sorting by
(start_lineno ascending, end_lineno descending) and then arbitrating
overlaps — is strictly increasing in start_lineno: no two returned examples
share a start_lineno. -/
theorem harvest_output_strictly_increasing (l l' : List OvExample)
    (h : sort_and_check_overlap l = .ok l') :
    List.Pairwise (fun a b => a.start_lineno < b.start_lineno) l' := by
  have hsortb := List.sorted_mergeSort
    exampleLe_trans exampleLe_total l
  have hsorted : List.Pairwise ExampleLeP (l.mergeSort exampleLe) :=
    hsortb.imp fun hab => (exampleLe_iff _ _).mp hab
  obtain ⟨hok, _⟩ := check_example_overlap_spec (l.mergeSort exampleLe)
  obtain ⟨hsub, hchain, _⟩ := hok l' h
  have hpair : List.Pairwise ExampleLeP l' := hsorted.sublist hsub
  have hchainLe : List.Chain' ExampleLeP l' := hpair.chain'
  have hchainLt : List.Chain' (fun a b => a.start_lineno < b.start_lineno) l' := by
    refine chain'_combine ?_ l' hchainLe hchain
    intro a b hle hnc
    have ht1 : collision_type_1 a b = false := by
      have hh := hnc
      simp only [any_collision, Bool.or_eq_false_iff] at hh
      exact hh.1.1
    have hne : a.start_lineno ≠ b.start_lineno := by
      simpa [collision_type_1] using ht1
    rcases hle with hlt | ⟨heq, _⟩
    · exact hlt
    · exact absurd heq hne
  haveI : IsTrans OvExample (fun a b => a.start_lineno < b.start_lineno) :=
    ⟨fun _ _ _ h1 h2 => lt_trans h1 h2⟩
  exact List.chain'_iff_pairwise.mp hchainLt

/-- Closed witness for `harvest_output_strictly_increasing`: a singleton
harvest succeeds and is trivially strictly increasing. -/
theorem harvest_output_strictly_increasing_witness :
    sort_and_check_overlap [OvExample.mk 1 4] = .ok [OvExample.mk 1 4] ∧
    List.Pairwise (fun a b : OvExample => a.start_lineno < b.start_lineno)
      [OvExample.mk 1 4] := by
  have h : sort_and_check_overlap [OvExample.mk 1 4] = .ok [OvExample.mk 1 4] := by
    rw [sort_and_check_overlap, List.mergeSort_singleton, check_example_overlap_cons]
    rfl
  exact ⟨h, harvest_output_strictly_increasing _ _ h⟩


/-! ## Indent normalization (finder.py, `ExampleFinder.check_and_remove_indent`)

Python strings are embedded as `List Char`; `str.split(chr(10))` and
`chr(10).join` become `splitLines` and `joinLines`. -/

/-- Python `example_str.split(chr(10))` (finder.py:510). -/
def splitLines : List Char → List (List Char)
  | [] => [[]]
  | c :: rest =>
    if c = '\n' then [] :: splitLines rest
    else
      match splitLines rest with
      | [] => [[c]]
      | l :: ls => (c :: l) :: ls

/-- Python `chr(10).join(lines)` (finder.py:524). -/
def joinLines : List (List Char) → List Char
  | [] => []
  | [l] => l
  | l :: ls => l ++ '\n' :: joinLines ls

theorem splitLines_ne_nil (cs : List Char) : splitLines cs ≠ [] := by
  match cs with
  | [] => simp [splitLines]
  | c :: rest =>
    rw [splitLines]
    split
    · simp
    · split <;> simp

theorem joinLines_splitLines (cs : List Char) : joinLines (splitLines cs) = cs := by
  induction cs with
  | nil => rfl
  | cons c rest ih =>
    rw [splitLines]
    split
    · rename_i hc
      subst hc
      have hne := splitLines_ne_nil rest
      match hsp : splitLines rest with
      | [] => exact absurd hsp hne
      | l :: ls =>
        rw [hsp] at ih
        match ls with
        | [] => simpa [joinLines] using ih
        | l2 :: ls2 => simpa [joinLines] using ih
    · match hsp : splitLines rest with
      | [] => exact absurd hsp (splitLines_ne_nil rest)
      | l :: ls =>
        rw [hsp] at ih
        match ls with
        | [] => simpa [joinLines] using ih
        | l2 :: ls2 => simpa [joinLines] using ih

/-- finder.py:513-519 — the `for lineno, line in enumerate(lines)` loop of
`check_and_remove_indent`: keep (and prefix-strip) lines until the first
non-empty line that does not start with the indent; record the 0-based index
where the scan broke, if it did. -/
def indentStripScan (indent : List Char) : List (List Char) → Nat →
    (List (List Char) × Option Nat)
  | [], _ => ([], none)
  | line :: rest, lineno =>
    if !indent.isPrefixOf line && !line.isEmpty then ([], some lineno)
    else
      let r := indentStripScan indent rest (lineno + 1)
      (line.drop indent.length :: r.1, r.2)

/-- finder.py:479-524 — `ExampleFinder.check_and_remove_indent`: remove the
indentation of an example, truncating it at the first line with a lower
indentation level (updating `where.end_lineno` accordingly) and raising
`ValueError("Inconsistent state.")` when nothing at all is kept. -/
def check_and_remove_indent (example_str indent : List Char) (w : Where) :
    Except String (List Char × Where) :=
  let lines := splitLines example_str
  let r := indentStripScan indent lines 0
  let w' := match r.2 with
    | some lineno => { w with end_lineno := w.start_lineno + (lineno : Int) - 1 }
    | none => w
  if r.1 = [] then .error "Inconsistent state."
  else .ok (joinLines r.1, w')

/-- A line survives the indent scan iff it starts with the indent or is
empty (the negation of the `break` condition at finder.py:514). -/
def keepLine (indent line : List Char) : Bool :=
  indent.isPrefixOf line || line.isEmpty

theorem indentStripScan_eq (indent : List Char) :
    ∀ (ls : List (List Char)) (n : Nat),
      indentStripScan indent ls n =
        ((ls.takeWhile (keepLine indent)).map (fun l => l.drop indent.length),
         if (ls.takeWhile (keepLine indent)).length = ls.length then none
         else some (n + (ls.takeWhile (keepLine indent)).length)) := by
  intro ls
  induction ls with
  | nil => intro n; simp [indentStripScan]
  | cons line rest ih =>
    intro n
    rw [indentStripScan]
    by_cases hk : keepLine indent line = true
    · have hcond : (!indent.isPrefixOf line && !line.isEmpty) = false := by
        simp only [keepLine, Bool.or_eq_true] at hk
        rcases hk with h | h <;> simp [h]
      rw [hcond]
      simp only [Bool.false_eq_true, if_false, List.takeWhile_cons, hk, if_true]
      rw [ih (n + 1)]
      simp only [List.map_cons, List.length_cons]
      by_cases hlen : (rest.takeWhile (keepLine indent)).length = rest.length
      · simp [hlen]
      · have hlen2 : ¬ ((rest.takeWhile (keepLine indent)).length + 1 = rest.length + 1) := by
          omega
        simp only [hlen, if_false, hlen2]
        have harith : n + 1 + (rest.takeWhile (keepLine indent)).length =
            n + ((rest.takeWhile (keepLine indent)).length + 1) := by omega
        rw [harith]
    · have hkf : keepLine indent line = false := by
        simpa using hk
      have hcond : (!indent.isPrefixOf line && !line.isEmpty) = true := by
        cases hb : indent.isPrefixOf line <;> cases he : line.isEmpty <;>
          simp_all [keepLine]
      rw [hcond]
      simp only [if_true, List.takeWhile_cons]
      simp [hkf]

/-- C4: for every example string, indent prefix and `Where`,
`check_and_remove_indent` keeps exactly the longest prefix of lines that are
empty or begin with the indent (stripping the indent from each), the first
line after that prefix — if any — is a non-empty line that does not begin with
the indent, and the function truncates there, updating `where.end_lineno` to
`start_lineno` plus the number of kept lines minus one (leaving `where`
untouched when nothing is truncated); if no line at all is kept it raises
`ValueError("Inconsistent state.")`. -/
theorem check_and_remove_indent_spec (s indent : List Char) (w : Where) :
    ((splitLines s).takeWhile (keepLine indent)).all (keepLine indent) = true ∧
    (match ((splitLines s).dropWhile (keepLine indent)).head? with
      | some l => keepLine indent l = false
      | none => True) ∧
    check_and_remove_indent s indent w =
      (if ((splitLines s).takeWhile (keepLine indent)).length = 0 then
        .error "Inconsistent state."
      else
        .ok (joinLines (((splitLines s).takeWhile (keepLine indent)).map
              (fun l => l.drop indent.length)),
          if ((splitLines s).takeWhile (keepLine indent)).length =
              (splitLines s).length then w
          else { w with end_lineno := w.start_lineno +
            ((((splitLines s).takeWhile (keepLine indent)).length : Nat) : Int) - 1 })) := by
  refine ⟨List.all_eq_true.mpr (fun x hx => List.mem_takeWhile_imp hx), ?_, ?_⟩
  · have h := List.head?_dropWhile_not (keepLine indent) (splitLines s)
    match hh : ((splitLines s).dropWhile (keepLine indent)).head? with
    | some l => rw [hh] at h; exact h
    | none => trivial
  · rw [check_and_remove_indent]
    rw [indentStripScan_eq]
    by_cases hk : ((splitLines s).takeWhile (keepLine indent)).length = 0
    · have hempty : (splitLines s).takeWhile (keepLine indent) = [] :=
        List.length_eq_zero.mp hk
      have hlen : (splitLines s).length ≠ 0 := by
        intro hc
        exact splitLines_ne_nil s (List.length_eq_zero.mp hc)
      simp [hempty, hk, hlen]
    · have hne : ((splitLines s).takeWhile (keepLine indent)).map
          (fun l => l.drop indent.length) ≠ [] := by
        intro hc
        rw [List.map_eq_nil] at hc
        exact hk (by rw [hc]; rfl)
      by_cases hlen : ((splitLines s).takeWhile (keepLine indent)).length =
          (splitLines s).length
      · simp [hlen, hk, hne, splitLines_ne_nil s]
      · simp [hlen, hk, hne, splitLines_ne_nil s]

/-- C5 counterexample: indent normalization is not idempotent with the same
non-empty prefix.  Normalizing `"  a"` with indent `"  "` succeeds and yields
`"a"`, but applying `check_and_remove_indent` with the same prefix `"  "` to
that result raises `ValueError("Inconsistent state.")` instead of returning it
unchanged. -/
theorem check_and_remove_indent_not_idempotent :
    check_and_remove_indent "  a".data "  ".data (Where.mk 1 1 "foo.rst" none) =
      .ok ("a".data, Where.mk 1 1 "foo.rst" none) ∧
    check_and_remove_indent "a".data "  ".data (Where.mk 1 1 "foo.rst" none) =
      .error "Inconsistent state." := by
  constructor <;> rfl

/-- C5 amended: re-running indent normalization on an already normalized
example is a no-op only because the indent captured from the normalized text
is empty: stripping the empty prefix keeps every line unchanged, truncates
nothing, leaves `where` untouched and raises no error.  (With the same
non-empty prefix a second run can instead raise, see the counterexample.) -/
theorem check_and_remove_indent_empty_indent_noop (s : List Char) (w : Where) :
    check_and_remove_indent s [] w = .ok (s, w) := by
  have hkeep : ∀ l : List Char, keepLine [] l = true := by
    intro l
    simp [keepLine, List.isPrefixOf]
  have htake : (splitLines s).takeWhile (keepLine []) = splitLines s :=
    List.takeWhile_eq_self_iff.mpr (fun x _ => hkeep x)
  rw [check_and_remove_indent, indentStripScan_eq, htake]
  simp [splitLines_ne_nil s, joinLines_splitLines, List.map_id']

/-! ## `finder.Example.parse_yourself` (finder.py:88-97) -/

/-- State of a finder `Example` relevant to `parse_yourself`: the raw snippet
and expected text plus the `fully_parsed` flag set by a successful parse. -/
structure ExampleState where
  snippet : List Char
  expected_str : List Char
  fully_parsed : Bool
deriving Repr, DecidableEq

/-- finder.py:88-97 — `Example.parse_yourself`.  Raises `ValueError` when the
example was already fully parsed; otherwise invokes `parser.parse` (which may
itself raise, modelled by `parserRaises`) and only then sets `fully_parsed`.
The second component records whether `parser.parse` was invoked. -/
def parse_yourself (parserRaises : Bool) (e : ExampleState) :
    Except String ExampleState × Bool :=
  if e.fully_parsed then
    (.error "You cannot parse/build an example twice", false)
  else if parserRaises then
    (.error "parser error", true)
  else
    (.ok { e with fully_parsed := true }, true)

/-- C10: an example can be fully parsed at most once — a successful
`parse_yourself` sets `fully_parsed` and returns the example, and every
subsequent call on that example raises `ValueError` without invoking the
parser again. -/
theorem parse_yourself_at_most_once (e : ExampleState)
    (h : e.fully_parsed = false) :
    ∃ e', parse_yourself false e = (.ok e', true) ∧ e'.fully_parsed = true ∧
      ∀ parserRaises, parse_yourself parserRaises e' =
        (.error "You cannot parse/build an example twice", false) := by
  refine ⟨{ e with fully_parsed := true }, ?_, rfl, ?_⟩
  · simp [parse_yourself, h]
  · intro parserRaises
    simp [parse_yourself]

/-- Closed witness for `parse_yourself_at_most_once` at the docstring
example `f()` / `42`. -/
theorem parse_yourself_at_most_once_witness :
    (ExampleState.mk "f()".data "42".data false).fully_parsed = false ∧
    ∃ e', parse_yourself false (ExampleState.mk "f()".data "42".data false) =
        (.ok e', true) ∧ e'.fully_parsed = true ∧
      ∀ parserRaises, parse_yourself parserRaises e' =
        (.error "You cannot parse/build an example twice", false) :=
  ⟨rfl, parse_yourself_at_most_once _ rfl⟩

/-! ## `parser.ExampleParser.parse` and the option stack (parser.py:96-147)

The option stack itself lives in `options.py`, which is not among the
sources; only its `up`/`down` calls appear in `parse`.  The stack is
therefore modelled by its depth, and the fallible operations of `parse`
(`extract_options`, `process_snippet_and_expected`, the `rm` replacements
and `expected_as_regexs`) by an oracle saying which of them, if any,
raises. -/

/-- The fallible operations of `ExampleParser.parse`, in source order. -/
inductive ParseStep where
  | extract : ParseStep
  | process : ParseStep
  | rm : ParseStep
  | compile : ParseStep
deriving Repr, DecidableEq

/-- parser.py:96-147 — the control flow of `ExampleParser.parse` as it acts
on the option stack depth.  `extract_options` (line 99) runs before
`options.up` (line 100); `options.down()` (line 146) runs last, with no
try/finally around the body.  A raise propagates immediately, skipping every
later line. -/
def parse (failAt : Option ParseStep) (depth : Nat) : Except Unit Unit × Nat :=
  if failAt = some .extract then (.error (), depth)
  else
    -- options.up(local_options)
    let depth := depth + 1
    if failAt = some .process then (.error (), depth)
    else if failAt = some .rm then (.error (), depth)
    else if failAt = some .compile then (.error (), depth)
    else
      -- options.down()
      (.ok (), depth - 1)

/-- C3 counterexample: the option scope is not popped on every exit path.
When `expected_as_regexs` raises, `parse` leaves the stack one scope deeper
than it found it (depth 0 before, depth 1 after), contradicting the claim
that a failing parse leaves the option stack depth unchanged. -/
theorem parse_option_stack_unbalanced :
    parse (some .compile) 0 = (.error (), 1) ∧ (1 : Nat) ≠ 0 := by
  constructor
  · rfl
  · decide

/-- C3 amended: `parse` pushes one option scope after extracting options and
pops it only on the successful exit path.  If option extraction raises the
stack is untouched (nothing was pushed yet), but if snippet/expected
processing, `rm` substring removal, or expected-regex compilation raises
after the push, the scope is not popped and the stack depth increases by
exactly one. -/
theorem parse_option_stack_balance (depth : Nat) :
    parse none depth = (.ok (), depth) ∧
    parse (some .extract) depth = (.error (), depth) ∧
    parse (some .process) depth = (.error (), depth + 1) ∧
    parse (some .rm) depth = (.error (), depth + 1) ∧
    parse (some .compile) depth = (.error (), depth + 1) := by
  refine ⟨?_, rfl, rfl, rfl, rfl⟩
  simp [parse]

/-! ## `runner.PexpectMixin._exec_and_wait` (runner.py:145-160)

The `pexpect` child process and the `pyte` terminal emulator are external
libraries: the child's replies are modelled by an oracle giving the `before`
text collected by each `expect`, and the ansi emulator by an opaque render
function.  The dumb and as-is emulations are translated from runner.py. -/

/-- Python whitespace for `str.rstrip()`. -/
def isPySpace (c : Char) : Bool :=
  c = ' ' || c = Char.ofNat 9 || c = Char.ofNat 10 || c = Char.ofNat 13 ||
    c = Char.ofNat 11 || c = Char.ofNat 12

/-- Right-strip trailing whitespace from a line (Python `line.rstrip()`). -/
def rstripLine (cs : List Char) : List Char :=
  (cs.reverse.dropWhile isPySpace).reverse

/-- Normalize CR, CRLF, VT and FF line terminators to LF
(the terminators recognised by Python `str.splitlines` that can appear in
interpreter output; the rarer ones are out of scope). -/
def normNewlines (cs : List Char) : List Char :=
  match cs with
  | [] => []
  | [c] =>
    if c = Char.ofNat 13 || c = Char.ofNat 11 || c = Char.ofNat 12 then [Char.ofNat 10]
    else [c]
  | c :: c2 :: rest =>
    if c = Char.ofNat 13 then
      if c2 = Char.ofNat 10 then Char.ofNat 10 :: normNewlines rest
      else Char.ofNat 10 :: normNewlines (c2 :: rest)
    else if c = Char.ofNat 11 || c = Char.ofNat 12 then
      Char.ofNat 10 :: normNewlines (c2 :: rest)
    else c :: normNewlines (c2 :: rest)
termination_by cs.length
decreasing_by all_goals (simp [List.length_cons]; try omega)

/-- runner.py:203-205 — `_universal_new_lines`:
`chr(10).join(out.splitlines())`, i.e. normalize terminators to LF and drop
a single trailing terminator. -/
def universal_new_lines (cs : List Char) : List Char :=
  let t := normNewlines cs
  if t.getLast? = some (Char.ofNat 10) then t.dropLast else t

/-- Column-tracking tab expansion (Python `str.expandtabs(8)`). -/
def expandTabsAux (col : Nat) : List Char → List Char
  | [] => []
  | c :: rest =>
    if c = Char.ofNat 9 then
      let nsp := 8 - col % 8
      List.replicate nsp ' ' ++ expandTabsAux (col + nsp) rest
    else if c = Char.ofNat 10 || c = Char.ofNat 13 then
      c :: expandTabsAux 0 rest
    else c :: expandTabsAux (col + 1) rest

def expandTabs8 (cs : List Char) : List Char :=
  expandTabsAux 0 cs

/-- runner.py:223-231 — `_emulate_dumb_terminal`: per chunk, normalize
newlines, expand tabs to 8, right-strip every line; concatenate chunks. -/
def _emulate_dumb_terminal (chunks : List (List Char)) : List Char :=
  (chunks.map (fun chunk =>
    joinLines ((splitLines (expandTabs8 (universal_new_lines chunk))).map
      rstripLine))).flatten

/-- runner.py:233-234 — `_emulate_as_is_terminal`. -/
def _emulate_as_is_terminal (chunks : List (List Char)) : List Char :=
  (chunks.map universal_new_lines).flatten

/-- The `term` option selecting the emulation (runner.py:265-276). -/
inductive TermKind where
  | dumb : TermKind
  | ansi : TermKind
  | asIs : TermKind
deriving Repr, DecidableEq

/-- runner.py:265-276 — `_get_output` dispatch on `options[term]`.  The
`ansi` emulation feeds chunks through the external `pyte` screen/stream and
is therefore a parameter. -/
def _get_output (term : TermKind) (ansiRender : List (List Char) → List Char)
    (chunks : List (List Char)) : List Char :=
  match term with
  | .dumb => _emulate_dumb_terminal chunks
  | .ansi => ansiRender chunks
  | .asIs => _emulate_as_is_terminal chunks

/-- Observable interaction of `_exec_and_wait` with the pexpect child. -/
inductive PexpectEvent where
  | sendline (line : List Char) : PexpectEvent
  | expectAnyPS : PexpectEvent
  | expectPS1 : PexpectEvent
deriving Repr, DecidableEq

/-- runner.py:145-160 — the send/expect loop of `_exec_and_wait` over the
lines of the source: every line but the last is sent and followed by an
expect of `any_PS_re`; the last line is followed by an expect of `PS1_re`.
`oracle k` is the `before` text collected by the k-th expect
(runner.py:256, appended to `self.last_output`). -/
def execLines (oracle : Nat → List Char) :
    List (List Char) → Nat → (List PexpectEvent × List (List Char))
  | [], _ => ([], [])
  | [last], k => ([.sendline last, .expectPS1], [oracle k])
  | line :: next :: rest, k =>
    let r := execLines oracle (next :: rest) (k + 1)
    (.sendline line :: .expectAnyPS :: r.1, oracle k :: r.2)

/-- runner.py:145-160 — `_exec_and_wait`: split the source on newlines,
run the send/expect loop, and return the collected output rendered by the
selected terminal emulation (`_get_output`). -/
def _exec_and_wait (oracle : Nat → List Char) (term : TermKind)
    (ansiRender : List (List Char) → List Char) (source : List Char) :
    List PexpectEvent × List Char :=
  let lines := splitLines source
  let r := execLines oracle lines 0
  (r.1, _get_output term ansiRender r.2)

theorem execLines_spec (oracle : Nat → List Char) :
    ∀ (ls : List (List Char)) (hne : ls ≠ []) (k : Nat),
      execLines oracle ls k =
        ((ls.dropLast.map
            (fun l => [PexpectEvent.sendline l, PexpectEvent.expectAnyPS])).flatten ++
          [PexpectEvent.sendline (ls.getLast hne), PexpectEvent.expectPS1],
         (List.range' k ls.length).map oracle) := by
  intro ls
  induction ls with
  | nil => intro hne; exact absurd rfl hne
  | cons line rest ih =>
    intro hne k
    match rest with
    | [] => simp [execLines, List.range']
    | next :: rest2 =>
      rw [execLines]
      rw [ih (by simp) (k + 1)]
      simp [List.range']

/-- C6: for every example source of N (newline-split) lines, `_exec_and_wait`
sends lines 1..N-1 each followed by an expect of the any-prompt regex, then
sends line N followed by an expect of the primary-prompt regex, appending
each expect's collected `before` text to the per-run buffer, and returns
that buffer rendered by the selected terminal emulation. -/
theorem exec_and_wait_protocol (oracle : Nat → List Char) (term : TermKind)
    (ansiRender : List (List Char) → List Char) (source : List Char) :
    (_exec_and_wait oracle term ansiRender source).1 =
      ((splitLines source).dropLast.map
          (fun l => [PexpectEvent.sendline l, PexpectEvent.expectAnyPS])).flatten ++
        [PexpectEvent.sendline
            ((splitLines source).getLast (splitLines_ne_nil source)),
         PexpectEvent.expectPS1] ∧
    (_exec_and_wait oracle term ansiRender source).2 =
      _get_output term ansiRender
        ((List.range (splitLines source).length).map oracle) := by
  rw [_exec_and_wait]
  rw [execLines_spec oracle (splitLines source) (splitLines_ne_nil source) 0]
  constructor
  · rfl
  · rw [List.range_eq_range']

/-! ## Expected-output compiler (parser.py:150-227 and spec section 4.5)

`ExampleParser.expected_as_regexs` delegates to the state machines
`SM_NotNormWS` / `SM_NormWS` of `parser_sm.py`, a module of this repository
that is not among the sources.  The machines are therefore modelled from the
spec (section 4.5), constrained by the concrete outputs recorded in the
parser.py docstrings; the lexing regexes they use are the ones defined at
parser.py:67-70. -/

/-- First character of a capture-tag name: `[A-Za-z.]` (parser.py:68-69). -/
def isNameStart (c : Char) : Bool :=
  c.isAlpha || c = '.'

/-- Later characters of a capture-tag name: `[A-Za-z0-9:.-]`
(parser.py:68-69). -/
def isNameRest (c : Char) : Bool :=
  c.isAlpha || c.isDigit || c = ':' || c = '.' || c = '-'

/-- Try to read `NAME>` (the remainder of a capture tag `<NAME>`) from the
characters following a `<`; return the name and the rest of the input.
Greedy scanning followed by a `>` check is equivalent to the regex
`<([A-Za-z.][A-Za-z0-9:.-]*)>` because `>` is not a name character. -/
def parseTagBody (cs : List Char) : Option (List Char × List Char) :=
  match cs with
  | [] => none
  | c :: rest =>
    if isNameStart c then
      match rest.dropWhile isNameRest with
      | c2 :: rest2 =>
        if c2 = '>' then some (c :: rest.takeWhile isNameRest, rest2) else none
      | [] => none
    else none

theorem parseTagBody_sound {cs nm rest' : List Char}
    (h : parseTagBody cs = some (nm, rest')) :
    nm ≠ [] ∧ cs = nm ++ '>' :: rest' := by
  match cs with
  | [] => simp [parseTagBody] at h
  | c :: rest =>
    rw [parseTagBody] at h
    split at h
    · split at h
      · split at h
        · rename_i hdrop c2 rest2 hdw hc2
          cases h
          refine ⟨by simp, ?_⟩
          have hsplit := List.takeWhile_append_dropWhile (p := isNameRest) (l := rest)
          simp only [List.cons_append]
          rw [hc2] at hdw
          rw [← hdw, hsplit]
        · simp at h
      · simp at h
    · simp at h

/-- A token of the capture-tag lexer: a literal run or a tag `<name>`. -/
inductive SMToken where
  | lit (cs : List Char) : SMToken
  | tag (name : List Char) : SMToken
deriving Repr, DecidableEq

/-- Source text covered by a token. -/
def rawOfToken : SMToken → List Char
  | .lit cs => cs
  | .tag n => '<' :: n ++ ['>']

/-- Source text covered by a token list. -/
def tokensRaw (ts : List SMToken) : List Char :=
  (ts.map rawOfToken).flatten

/-- Prepend a character to the first literal token, merging adjacent
literal characters into one run (as `re.split` keeps inter-tag text as a
single piece). -/
def consLit (c : Char) : List SMToken → List SMToken
  | .lit cs :: rest => .lit (c :: cs) :: rest
  | ts => .lit [c] :: ts

theorem tokensRaw_consLit (c : Char) (ts : List SMToken) :
    tokensRaw (consLit c ts) = c :: tokensRaw ts := by
  match ts with
  | [] => rfl
  | .lit cs :: rest => simp [consLit, tokensRaw, rawOfToken]
  | .tag n :: rest => simp [consLit, tokensRaw, rawOfToken]

/-- Split the expected string on the capture-tag pattern
`(<[A-Za-z.][A-Za-z0-9:.-]*>)` (parser.py:68, applied by the state machines
of parser_sm.py).  Fuelled structural recursion; the fuel `cs.length` never
runs out (`tokensRaw_tokenizeFuel`). -/
def tokenizeFuel : Nat → List Char → List SMToken
  | 0, _ => []
  | _, [] => []
  | fuel + 1, c :: rest =>
    if c = '<' then
      match parseTagBody rest with
      | some (nm, rest') => .tag nm :: tokenizeFuel fuel rest'
      | none => consLit '<' (tokenizeFuel fuel rest)
    else consLit c (tokenizeFuel fuel rest)

def tokenize (cs : List Char) : List SMToken :=
  tokenizeFuel cs.length cs

theorem tokensRaw_tokenizeFuel :
    ∀ (fuel : Nat) (cs : List Char), cs.length ≤ fuel →
      tokensRaw (tokenizeFuel fuel cs) = cs := by
  intro fuel
  induction fuel with
  | zero =>
    intro cs h
    have : cs = [] := List.length_eq_zero.mp (Nat.le_zero.mp h)
    subst this
    rfl
  | succ fuel ih =>
    intro cs h
    match cs with
    | [] => rfl
    | c :: rest =>
      rw [tokenizeFuel]
      split
      · rename_i hc
        subst hc
        match hp : parseTagBody rest with
        | some (nm, rest') =>
          obtain ⟨hnm, hshape⟩ := parseTagBody_sound hp
          have hlen : rest'.length ≤ fuel := by
            have h1 : rest.length = nm.length + 1 + rest'.length := by
              rw [hshape]; simp; omega
            have h2 : 1 ≤ nm.length := by
              match nm with
              | [] => exact absurd rfl hnm
              | _ :: _ => simp
            simp only [List.length_cons] at h
            omega
          have hr := ih rest' hlen
          simp only [tokensRaw] at hr ⊢
          simp only [List.map_cons, List.flatten_cons, rawOfToken]
          rw [hr, hshape]
          simp
        | none =>
          rw [tokensRaw_consLit]
          rw [ih rest (by simp at h; omega)]
      · rw [tokensRaw_consLit]
        rw [ih rest (by simp at h; omega)]

theorem tokensRaw_tokenize (cs : List Char) : tokensRaw (tokenize cs) = cs :=
  tokensRaw_tokenizeFuel cs.length cs (le_refl _)

/-- parser.py:72-73 — `ellipsis_marker`. -/
def ellipsis_marker : List Char := ['.', '.', '.']

/-- parser.py:8-9 — `tag_name_as_regex_name`: replace `-` by `_` in the
regex group name. -/
def tag_name_as_regex_name (name : List Char) : List Char :=
  name.map fun c => if c = '-' then '_' else c

/-- How a tag of the whitespace-normalizing machine is rendered, depending
on its whitespace context (spec section 4.5.2 and the parser.py docstring
outputs). -/
inductive NormTagForm where
  | group : NormTagForm      -- whitespace on both sides: optional group
  | endForm : NormTagForm    -- tag at the very end: absorbs trailing ws
  | rightTrim : NormTagForm  -- whitespace on the right only
  | plain : NormTagForm
deriving Repr, DecidableEq

/-- A compiled regex segment, the tagged-variant view of the strings
emitted by the two state machines. -/
inductive Seg where
  | anchorStart : Seg
  | lit (cs : List Char) : Seg
  | namedTag (name : List Char) : Seg
  | unnamedTag : Seg
  | anchorEndNotNorm : Seg
  | wsSingle : Seg
  | wsPlus : Seg
  | normTag (name : Option (List Char)) (form : NormTagForm) : Seg
  | anchorEndNorm : Seg
deriving Repr, DecidableEq

/-- Characters escaped by Python `re.escape`. -/
def escapeChar (c : Char) : List Char :=
  if c ∈ ['(', ')', '[', ']', '?', '*', '+', '-', '|', '^', '$', '\\', '.',
          '&', '~', '#', ' ', Char.ofNat 9, Char.ofNat 10, Char.ofNat 13,
          Char.ofNat 11, Char.ofNat 12, Char.ofNat 123, Char.ofNat 125] then
    ['\\', c]
  else [c]

/-- Render a segment as the regex string the state machines emit. -/
def renderSeg : Seg → String
  | .anchorStart => "\\A"
  | .lit cs => String.mk (cs.flatMap escapeChar)
  | .namedTag n => "(?P<" ++ String.mk (tag_name_as_regex_name n) ++ ">.*?)"
  | .unnamedTag => "(?:.*?)"
  | .anchorEndNotNorm => "\\n*\\Z"
  | .wsSingle => "\\s"
  | .wsPlus => "\\s+(?!\\s)"
  | .anchorEndNorm => "\\s*\\Z"
  | .normTag (some n) .group =>
      "(?:\\s*(?!\\s)(?P<" ++ String.mk (tag_name_as_regex_name n) ++ ">.+?)(?<!\\s))?"
  | .normTag none .group => "(?:\\s*(?!\\s)(?:.+)(?<!\\s))?"
  | .normTag (some n) .endForm =>
      "(?P<" ++ String.mk (tag_name_as_regex_name n) ++ ">.*?)(?<!\\s)"
  | .normTag none .endForm => "(?:.*)(?<!\\s)"
  | .normTag (some n) .rightTrim =>
      "(?P<" ++ String.mk (tag_name_as_regex_name n) ++ ">.*?)(?<!\\s)"
  | .normTag none .rightTrim => "(?:.*?)(?<!\\s)"
  | .normTag (some n) .plain =>
      "(?P<" ++ String.mk (tag_name_as_regex_name n) ++ ">.*?)"
  | .normTag none .plain => "(?:.*?)"

/-- Modelled from the spec: `SM_NotNormWS` of parser_sm.py (spec 4.5.1).
Emit one segment per token — literal runs as escaped literals, tags as lazy
captures — recording for each segment its starting offset in the expected
string and its rcount (literal length for literals, 0 for tags). -/
def emitNotNorm : Nat → List SMToken → List (Seg × Nat × Nat)
  | _, [] => []
  | off, .lit cs :: rest =>
    (.lit cs, off, cs.length) :: emitNotNorm (off + cs.length) rest
  | off, .tag n :: rest =>
    ((if n = ellipsis_marker then Seg.unnamedTag else Seg.namedTag n), off, 0) ::
      emitNotNorm (off + (n.length + 2)) rest

/-- An item of the whitespace-normalizing machine: a maximal non-whitespace
run, a maximal whitespace run, or a tag. -/
inductive NormItem where
  | nw (cs : List Char) : NormItem
  | ws (cs : List Char) : NormItem
  | tag (name : List Char) : NormItem
deriving Repr, DecidableEq

/-- Source text covered by a normalizing-machine item. -/
def itemRaw : NormItem → List Char
  | .nw cs => cs
  | .ws cs => cs
  | .tag n => '<' :: n ++ ['>']

/-- Split a literal run into maximal whitespace / non-whitespace runs
(fuelled; the fuel `cs.length` never runs out). -/
def splitRunsFuel : Nat → List Char → List NormItem
  | 0, _ => []
  | _, [] => []
  | fuel + 1, c :: rest =>
    if isPySpace c then
      .ws (c :: rest.takeWhile isPySpace) ::
        splitRunsFuel fuel (rest.dropWhile isPySpace)
    else
      .nw (c :: rest.takeWhile (fun x => !isPySpace x)) ::
        splitRunsFuel fuel (rest.dropWhile (fun x => !isPySpace x))

def splitRuns (cs : List Char) : List NormItem :=
  splitRunsFuel cs.length cs

/-- Items of the whitespace-normalizing machine for a token list. -/
def itemsOfTokens (ts : List SMToken) : List NormItem :=
  ts.flatMap fun t =>
    match t with
    | .lit cs => splitRuns cs
    | .tag n => [.tag n]

/-- Does the item list start with a whitespace run? -/
def headIsWs : List NormItem → Bool
  | .ws _ :: _ => true
  | _ => false

/-- Modelled from the spec: `SM_NormWS` of parser_sm.py (spec 4.5.2).
Emit one segment per item.  A whitespace run is `\s+(?!\s)` (rcount 1),
reduced to `\s` when it immediately precedes a tag that is itself followed
by whitespace (that tag absorbs the run via its optional group).  A tag
with whitespace on both sides becomes an optional trimmed group; a trailing
tag absorbs trailing whitespace; a tag followed by whitespace is
right-trimmed; other tags are plain lazy captures. -/
def wsSegFor (rest : List NormItem) : Seg :=
  match rest with
  | .tag _ :: rest2 => if headIsWs rest2 then Seg.wsSingle else Seg.wsPlus
  | _ => Seg.wsPlus

/-- Form of a tag segment given its whitespace context. -/
def tagFormFor (prevWs : Bool) (rest : List NormItem) : NormTagForm :=
  if prevWs && headIsWs rest then .group
  else if rest.isEmpty then .endForm
  else if headIsWs rest then .rightTrim
  else .plain

def emitNorm : Nat → Bool → List NormItem → List (Seg × Nat × Nat)
  | _, _, [] => []
  | off, _, .nw cs :: rest =>
    (.lit cs, off, cs.length) :: emitNorm (off + cs.length) false rest
  | off, _, .ws cs :: rest =>
    (wsSegFor rest, off, 1) :: emitNorm (off + cs.length) true rest
  | off, prevWs, .tag n :: rest =>
    (Seg.normTag (if n = ellipsis_marker then none else some n)
        (tagFormFor prevWs rest), off, 0) ::
      emitNorm (off + (n.length + 2)) false rest

/-- The compiled Expected artifact (parser.py:115-141): regex segments,
their source offsets, their rcounts, and the tag names by segment index.  -/
structure CompiledExpected where
  segs : List Seg
  charnos : List Nat
  rcounts : List Nat
  tags_by_idx : List (Nat × Option (List Char))
deriving Repr, DecidableEq

/-- Name carried by a non-literal (tag) segment, if the segment is one. -/
def tagNameOfSeg : Seg → Option (Option (List Char))
  | .namedTag n => some (some n)
  | .unnamedTag => some none
  | .normTag name _ => some name
  | _ => none

def tagsByIdxOf (segs : List Seg) : List (Nat × Option (List Char)) :=
  segs.enum.filterMap fun p => (tagNameOfSeg p.2).map fun nm => (p.1, nm)

/-- Modelled from the spec: `ExampleParser.expected_as_regexs`
(parser.py:150-227) including the `SM_NormWS` / `SM_NotNormWS` machines of
the missing parser_sm.py.  With `normalize_whitespace` false the output is
`\A`, one segment per token, `\n*\Z`; with it true the literal runs are
split into whitespace/non-whitespace runs and the terminator is `\s*\Z`.
With `tags_enabled` false the whole expected string is one literal token.
Offsets of the synthetic anchors are 0 and `expected.length`. -/
def expected_as_regexs (expected : List Char)
    (tags_enabled normalize_whitespace : Bool) : CompiledExpected :=
  let toks := if tags_enabled then tokenize expected
    else if expected.isEmpty then [] else [SMToken.lit expected]
  let triples :=
    if normalize_whitespace then
      (Seg.anchorStart, 0, 0) :: emitNorm 0 false (itemsOfTokens toks) ++
        [(Seg.anchorEndNorm, expected.length, 0)]
    else
      (Seg.anchorStart, 0, 0) :: emitNotNorm 0 toks ++
        [(Seg.anchorEndNotNorm, expected.length, 0)]
  { segs := triples.map (fun t => t.1),
    charnos := triples.map (fun t => t.2.1),
    rcounts := triples.map (fun t => t.2.2),
    tags_by_idx := tagsByIdxOf (triples.map (fun t => t.1)) }

/-- Semantics of the non-normalizing regex segments under the
`re.MULTILINE | re.DOTALL` flags used by the parser (parser.py:179): match
the whole input, captures are lazy (shortest first, as `.*?` backtracks),
`\n*\Z` accepts only trailing newlines.  Returns the named captures in
segment order.  The whitespace-normalizing segment forms are not given a
semantics here (no claim needs one). -/
def matchSegs (segs : List Seg) (cs : List Char) :
    Option (List (List Char × List Char)) :=
  match segs, cs with
  | [], [] => some []
  | [], _ :: _ => none
  | .anchorStart :: rest, cs => matchSegs rest cs
  | .lit l :: rest, cs =>
    if l.isPrefixOf cs then matchSegs rest (cs.drop l.length) else none
  | .namedTag n :: rest, cs =>
    (List.range (cs.length + 1)).findSome? fun k =>
      (matchSegs rest (cs.drop k)).map fun binds =>
        (tag_name_as_regex_name n, cs.take k) :: binds
  | .unnamedTag :: rest, cs =>
    (List.range (cs.length + 1)).findSome? fun k => matchSegs rest (cs.drop k)
  | .anchorEndNotNorm :: rest, cs =>
    if cs.all (fun c => c = Char.ofNat 10) then matchSegs rest [] else none
  | _ :: _, _ => none

/-- C2: compiling `"a<foo>b<bar>c"` with tags enabled and whitespace
normalization disabled yields exactly the regex segments
`(\A, a, (?P<foo>.*?), b, (?P<bar>.*?), c, \n*\Z)` (with source offsets
`(0, 0, 1, 6, 7, 12, 13)` as in the parser.py docstring), and matching the
concatenated regex against `"axxbyyyc"` captures `foo = "xx"` and
`bar = "yyy"`. -/
theorem expected_as_regexs_named_tag_example :
    (expected_as_regexs "a<foo>b<bar>c".data true false).segs.map renderSeg =
      ["\\A", "a", "(?P<foo>.*?)", "b", "(?P<bar>.*?)", "c", "\\n*\\Z"] ∧
    (expected_as_regexs "a<foo>b<bar>c".data true false).charnos =
      [0, 0, 1, 6, 7, 12, 13] ∧
    matchSegs (expected_as_regexs "a<foo>b<bar>c".data true false).segs
        "axxbyyyc".data =
      some [("foo".data, "xx".data), ("bar".data, "yyy".data)] := by
  refine ⟨?_, ?_, ?_⟩ <;> decide

/-- Sanity check of the modelled `SM_NormWS` against the three concrete
outputs recorded in the parser.py docstrings (lines 210-217 and 298-327). -/
theorem expected_as_regexs_norm_ws_docstring_outputs :
    (expected_as_regexs "a<...> <foo-bar>c".data true true).segs.map renderSeg =
      ["\\A", "a", "(?:.*?)(?<!\\s)", "\\s+(?!\\s)", "(?P<foo_bar>.*?)", "c",
       "\\s*\\Z"] ∧
    (expected_as_regexs "a<...> <foo-bar>c".data true true).tags_by_idx =
      [(2, none), (4, some "foo-bar".data)] ∧
    (expected_as_regexs "ex <...>\nu<...>".data true true).segs.map renderSeg =
      ["\\A", "ex", "\\s", "(?:\\s*(?!\\s)(?:.+)(?<!\\s))?", "\\s+(?!\\s)", "u",
       "(?:.*)(?<!\\s)", "\\s*\\Z"] ∧
    (expected_as_regexs "ex <foo>\nu<bar>".data true true).segs.map renderSeg =
      ["\\A", "ex", "\\s", "(?:\\s*(?!\\s)(?P<foo>.+?)(?<!\\s))?", "\\s+(?!\\s)",
       "u", "(?P<bar>.*?)(?<!\\s)", "\\s*\\Z"] ∧
    (expected_as_regexs "a<foo>b<bar>c".data true false).tags_by_idx =
      [(2, some "foo".data), (4, some "bar".data)] := by
  refine ⟨?_, ?_, ?_, ?_, ?_⟩ <;> decide

def charnosOf (l : List (Seg × Nat × Nat)) : List Nat :=
  l.map fun t => t.2.1

theorem length_dropWhile_le {α : Type} (p : α → Bool) (l : List α) :
    (l.dropWhile p).length ≤ l.length := by
  have h := congrArg List.length (List.takeWhile_append_dropWhile (p := p) (l := l))
  simp only [List.length_append] at h
  omega

theorem emitNotNorm_charnos_bounds :
    ∀ (toks : List SMToken) (off : Nat),
      List.Chain' (· ≤ ·) (charnosOf (emitNotNorm off toks)) ∧
      ∀ x ∈ charnosOf (emitNotNorm off toks),
        off ≤ x ∧ x ≤ off + (tokensRaw toks).length := by
  intro toks
  induction toks with
  | nil => intro off; simp [emitNotNorm, charnosOf]
  | cons t rest ih =>
    intro off
    match t with
    | .lit cs =>
      obtain ⟨ihc, ihb⟩ := ih (off + cs.length)
      constructor
      · rw [emitNotNorm]
        simp only [charnosOf, List.map_cons]
        rw [List.chain'_cons']
        refine ⟨?_, ihc⟩
        intro y hy
        have hmem := List.mem_of_mem_head? hy
        exact le_trans (Nat.le_add_right off cs.length) (ihb y hmem).1
      · intro x hx
        simp only [emitNotNorm, charnosOf, List.map_cons, List.mem_cons] at hx
        have hraw : (tokensRaw (SMToken.lit cs :: rest)).length =
            cs.length + (tokensRaw rest).length := by
          simp [tokensRaw, rawOfToken]
        rcases hx with hx | hx
        · subst hx; omega
        · obtain ⟨h1, h2⟩ := ihb x hx
          omega
    | .tag n =>
      obtain ⟨ihc, ihb⟩ := ih (off + (n.length + 2))
      constructor
      · rw [emitNotNorm]
        simp only [charnosOf, List.map_cons]
        rw [List.chain'_cons']
        refine ⟨?_, ihc⟩
        intro y hy
        have hmem := List.mem_of_mem_head? hy
        exact le_trans (Nat.le_add_right off (n.length + 2)) (ihb y hmem).1
      · intro x hx
        simp only [emitNotNorm, charnosOf, List.map_cons, List.mem_cons] at hx
        have hraw : (tokensRaw (SMToken.tag n :: rest)).length =
            (n.length + 2) + (tokensRaw rest).length := by
          simp [tokensRaw, rawOfToken]
          omega
        rcases hx with hx | hx
        · subst hx; omega
        · obtain ⟨h1, h2⟩ := ihb x hx
          omega

def itemsRaw (its : List NormItem) : List Char :=
  (its.map itemRaw).flatten

theorem emitNorm_charnos_bounds :
    ∀ (its : List NormItem) (off : Nat) (prevWs : Bool),
      List.Chain' (· ≤ ·) (charnosOf (emitNorm off prevWs its)) ∧
      ∀ x ∈ charnosOf (emitNorm off prevWs its),
        off ≤ x ∧ x ≤ off + (itemsRaw its).length := by
  intro its
  induction its with
  | nil => intro off prevWs; simp [emitNorm, charnosOf]
  | cons t rest ih =>
    intro off prevWs
    match t with
    | .nw cs =>
      obtain ⟨ihc, ihb⟩ := ih (off + cs.length) false
      constructor
      · rw [emitNorm]
        simp only [charnosOf, List.map_cons]
        rw [List.chain'_cons']
        refine ⟨?_, ihc⟩
        intro y hy
        exact le_trans (Nat.le_add_right off cs.length)
          (ihb y (List.mem_of_mem_head? hy)).1
      · intro x hx
        simp only [emitNorm, charnosOf, List.map_cons, List.mem_cons] at hx
        have hraw : (itemsRaw (NormItem.nw cs :: rest)).length =
            cs.length + (itemsRaw rest).length := by
          simp [itemsRaw, itemRaw]
        rcases hx with hx | hx
        · subst hx; omega
        · obtain ⟨h1, h2⟩ := ihb x hx
          omega
    | .ws cs =>
      obtain ⟨ihc, ihb⟩ := ih (off + cs.length) true
      constructor
      · rw [emitNorm]
        simp only [charnosOf, List.map_cons]
        rw [List.chain'_cons']
        refine ⟨?_, ihc⟩
        intro y hy
        exact le_trans (Nat.le_add_right off cs.length)
          (ihb y (List.mem_of_mem_head? hy)).1
      · intro x hx
        simp only [emitNorm, charnosOf, List.map_cons, List.mem_cons] at hx
        have hraw : (itemsRaw (NormItem.ws cs :: rest)).length =
            cs.length + (itemsRaw rest).length := by
          simp [itemsRaw, itemRaw]
        rcases hx with hx | hx
        · subst hx; omega
        · obtain ⟨h1, h2⟩ := ihb x hx
          omega
    | .tag n =>
      obtain ⟨ihc, ihb⟩ := ih (off + (n.length + 2)) false
      constructor
      · rw [emitNorm]
        simp only [charnosOf, List.map_cons]
        rw [List.chain'_cons']
        refine ⟨?_, ihc⟩
        intro y hy
        exact le_trans (Nat.le_add_right off (n.length + 2))
          (ihb y (List.mem_of_mem_head? hy)).1
      · intro x hx
        simp only [emitNorm, charnosOf, List.map_cons, List.mem_cons] at hx
        have hraw : (itemsRaw (NormItem.tag n :: rest)).length =
            (n.length + 2) + (itemsRaw rest).length := by
          simp [itemsRaw, itemRaw]
          omega
        rcases hx with hx | hx
        · subst hx; omega
        · obtain ⟨h1, h2⟩ := ihb x hx
          omega

theorem itemsRaw_splitRunsFuel :
    ∀ (fuel : Nat) (cs : List Char), cs.length ≤ fuel →
      itemsRaw (splitRunsFuel fuel cs) = cs := by
  intro fuel
  induction fuel with
  | zero =>
    intro cs h
    have : cs = [] := List.length_eq_zero.mp (Nat.le_zero.mp h)
    subst this
    rfl
  | succ fuel ih =>
    intro cs h
    match cs with
    | [] => rfl
    | c :: rest =>
      simp only [List.length_cons] at h
      rw [splitRunsFuel]
      split
      · have hlen : (rest.dropWhile isPySpace).length ≤ fuel :=
          le_trans (length_dropWhile_le _ _) (by omega)
        simp only [itemsRaw, List.map_cons, List.flatten_cons, itemRaw]
        have hr := ih (rest.dropWhile isPySpace) hlen
        simp only [itemsRaw] at hr
        rw [hr]
        simp only [List.cons_append]
        rw [List.takeWhile_append_dropWhile]
      · have hlen : (rest.dropWhile (fun x => !isPySpace x)).length ≤ fuel :=
          le_trans (length_dropWhile_le _ _) (by omega)
        simp only [itemsRaw, List.map_cons, List.flatten_cons, itemRaw]
        have hr := ih (rest.dropWhile (fun x => !isPySpace x)) hlen
        simp only [itemsRaw] at hr
        rw [hr]
        simp only [List.cons_append]
        rw [List.takeWhile_append_dropWhile]

theorem itemsRaw_splitRuns (cs : List Char) : itemsRaw (splitRuns cs) = cs :=
  itemsRaw_splitRunsFuel cs.length cs (le_refl _)

theorem tokensRaw_cons (t : SMToken) (ts : List SMToken) :
    tokensRaw (t :: ts) = rawOfToken t ++ tokensRaw ts := by
  simp [tokensRaw]

theorem itemsRaw_append (a b : List NormItem) :
    itemsRaw (a ++ b) = itemsRaw a ++ itemsRaw b := by
  simp [itemsRaw]

theorem itemsRaw_itemsOfTokens (ts : List SMToken) :
    itemsRaw (itemsOfTokens ts) = tokensRaw ts := by
  induction ts with
  | nil => rfl
  | cons t rest ih =>
    have hcons : itemsOfTokens (t :: rest) =
        (match t with
          | SMToken.lit cs => splitRuns cs
          | SMToken.tag n => [NormItem.tag n]) ++ itemsOfTokens rest := by
      simp [itemsOfTokens]
    rw [hcons, itemsRaw_append, tokensRaw_cons, ih]
    match t with
    | SMToken.lit cs =>
      rw [itemsRaw_splitRuns]
      rfl
    | SMToken.tag n =>
      simp [itemsRaw, itemRaw, rawOfToken]

theorem tokensRaw_toks_length (expected : List Char) (tags_enabled : Bool) :
    (tokensRaw (if tags_enabled then tokenize expected
      else if expected.isEmpty then [] else [SMToken.lit expected])).length =
      expected.length := by
  cases tags_enabled
  · simp only [Bool.false_eq_true, if_false]
    by_cases he : expected.isEmpty
    · have : expected = [] := List.isEmpty_iff.mp he
      subst this
      simp [tokensRaw]
    · simp only [he, if_false]
      simp [tokensRaw, rawOfToken]
  · simp only [if_true]
    rw [tokensRaw_tokenize]

theorem charnos_shape (body : List (Seg × Nat × Nat)) (L : Nat) (eL : Seg)
    (hchain : List.Chain' (· ≤ ·) (charnosOf body))
    (hbound : ∀ x ∈ charnosOf body, x ≤ L) :
    List.Chain' (· ≤ ·)
      (((Seg.anchorStart, 0, 0) :: (body ++ [(eL, L, 0)])).map (fun t => t.2.1)) ∧
    ((((Seg.anchorStart, 0, 0) :: (body ++ [(eL, L, 0)])).map
        (fun t => t.2.1)).head? = some 0) ∧
    ((((Seg.anchorStart, 0, 0) :: (body ++ [(eL, L, 0)])).map
        (fun t => t.2.1)).getLast? = some L) := by
  have hmap : ((Seg.anchorStart, 0, 0) :: (body ++ [(eL, L, 0)])).map
      (fun t => t.2.1) = (0 :: charnosOf body) ++ [L] := by
    simp [charnosOf]
  rw [hmap]
  refine ⟨?_, ?_, ?_⟩
  · rw [List.chain'_append]
    refine ⟨?_, List.chain'_singleton _, ?_⟩
    · rw [List.chain'_cons']
      exact ⟨fun y _ => Nat.zero_le y, hchain⟩
    · intro x hx y hy
      simp only [List.head?_cons, Option.mem_def, Option.some_inj] at hy
      subst hy
      match hc : charnosOf body with
      | [] =>
        rw [hc] at hx
        simp only [List.getLast?_singleton, Option.mem_def, Option.some_inj] at hx
        subst hx
        exact Nat.zero_le L
      | c :: cbody =>
        rw [hc] at hx
        have hxmem : x = 0 ∨ x ∈ c :: cbody := by
          have hm := List.mem_of_mem_getLast? hx
          exact List.mem_cons.mp hm
        rcases hxmem with rfl | hxmem
        · exact Nat.zero_le L
        · have hxb : x ∈ charnosOf body := by rw [hc]; exact hxmem
          exact hbound x hxb
  · rfl
  · rw [show ((0 : Nat) :: charnosOf body) ++ [L] =
        (((0 : Nat) :: charnosOf body)) ++ [L] from rfl]
    exact List.getLast?_concat _

/-- C8: for every expected string and every combination of the
`tags_enabled` and `normalize_whitespace` flags, the compiled Expected
satisfies the segment-accounting invariant: the regex-segment, charno and
rcount sequences have equal length, the charno sequence is non-decreasing,
its first element is 0 and its last element is the length of the expected
string. -/
theorem expected_as_regexs_segment_accounting (expected : List Char)
    (tags_enabled normalize_whitespace : Bool) :
    ((expected_as_regexs expected tags_enabled normalize_whitespace).segs.length =
      (expected_as_regexs expected tags_enabled normalize_whitespace).charnos.length) ∧
    ((expected_as_regexs expected tags_enabled normalize_whitespace).charnos.length =
      (expected_as_regexs expected tags_enabled normalize_whitespace).rcounts.length) ∧
    List.Chain' (· ≤ ·)
      (expected_as_regexs expected tags_enabled normalize_whitespace).charnos ∧
    ((expected_as_regexs expected tags_enabled normalize_whitespace).charnos.head? =
      some 0) ∧
    ((expected_as_regexs expected tags_enabled normalize_whitespace).charnos.getLast? =
      some expected.length) := by
  have hrawlen := tokensRaw_toks_length expected tags_enabled
  unfold expected_as_regexs
  cases normalize_whitespace
  · simp only [Bool.false_eq_true, if_false]
    obtain ⟨hchain, hbound⟩ := emitNotNorm_charnos_bounds
      (if tags_enabled then tokenize expected
        else if expected.isEmpty then [] else [SMToken.lit expected]) 0
    have hb : ∀ x ∈ charnosOf (emitNotNorm 0
        (if tags_enabled then tokenize expected
          else if expected.isEmpty then [] else [SMToken.lit expected])),
        x ≤ expected.length := by
      intro x hx
      have h2 := (hbound x hx).2
      omega
    obtain ⟨hch, hh, hl⟩ := charnos_shape _ expected.length Seg.anchorEndNotNorm
      hchain hb
    exact ⟨by simp, by simp, hch, hh, hl⟩
  · simp only [if_true]
    have hitems : (itemsRaw (itemsOfTokens
        (if tags_enabled then tokenize expected
          else if expected.isEmpty then [] else [SMToken.lit expected]))).length =
        expected.length := by
      rw [itemsRaw_itemsOfTokens]
      exact hrawlen
    obtain ⟨hchain, hbound⟩ := emitNorm_charnos_bounds
      (itemsOfTokens (if tags_enabled then tokenize expected
        else if expected.isEmpty then [] else [SMToken.lit expected])) 0 false
    have hb : ∀ x ∈ charnosOf (emitNorm 0 false
        (itemsOfTokens (if tags_enabled then tokenize expected
          else if expected.isEmpty then [] else [SMToken.lit expected]))),
        x ≤ expected.length := by
      intro x hx
      have h2 := (hbound x hx).2
      omega
    obtain ⟨hch, hh, hl⟩ := charnos_shape _ expected.length Seg.anchorEndNorm
      hchain hb
    exact ⟨by simp, by simp, hch, hh, hl⟩

/-! ## `common.ShebangTemplate.quote_and_substitute` (common.py:259-320)

`shlex.split`, `shlex.quote` and `string.Template` are Python standard
library collaborators; they are embedded here with POSIX semantics:
whitespace-separated words, single quotes (no escapes inside), double
quotes (backslash escapes `"` and `\`), backslash escapes outside quotes,
`%name` substitution.  Unterminated quotes / trailing escapes / missing
keys make the embedded functions return `none` where Python raises. -/

def isShlexBlank (c : Char) : Bool :=
  c = ' ' || c = Char.ofNat 9 || c = Char.ofNat 13 || c = Char.ofNat 10

/-- Scan a single-quoted section: everything up to the next `'`. -/
def scanSingleQ : List Char → Option (List Char × List Char)
  | [] => none
  | c :: rest =>
    if c = '\'' then some ([], rest)
    else (scanSingleQ rest).map fun p => (c :: p.1, p.2)

/-- Scan a double-quoted section: everything up to the next unescaped `"`;
a backslash escapes `"` and `\` and is otherwise kept literally. -/
def scanDoubleQ (cs : List Char) : Option (List Char × List Char) :=
  match cs with
  | [] => none
  | c :: rest =>
    if c = '"' then some ([], rest)
    else if c = '\\' then
      match rest with
      | [] => none
      | e :: rest2 =>
        if e = '"' ∨ e = '\\' then
          (scanDoubleQ rest2).map fun p => (e :: p.1, p.2)
        else
          (scanDoubleQ rest2).map fun p => ('\\' :: e :: p.1, p.2)
    else (scanDoubleQ rest).map fun p => (c :: p.1, p.2)

theorem scanSingleQ_length :
    ∀ {cs w r : List Char}, scanSingleQ cs = some (w, r) → r.length < cs.length := by
  intro cs
  induction cs with
  | nil => intro w r h; simp [scanSingleQ] at h
  | cons c rest ih =>
    intro w r h
    rw [scanSingleQ] at h
    split at h
    · cases h
      simp
    · match hs : scanSingleQ rest with
      | none => rw [hs] at h; simp at h
      | some (w2, r2) =>
        rw [hs] at h
        simp at h
        obtain ⟨h1, h2⟩ := h
        subst h2
        have := ih hs
        simp only [List.length_cons]
        omega

theorem scanDoubleQ_length_aux :
    ∀ (n : Nat) (cs : List Char), cs.length ≤ n → ∀ {w r : List Char},
      scanDoubleQ cs = some (w, r) → r.length < cs.length := by
  intro n
  induction n with
  | zero =>
    intro cs hcs w r h
    have : cs = [] := List.length_eq_zero.mp (Nat.le_zero.mp hcs)
    subst this
    rw [scanDoubleQ.eq_def] at h
    simp at h
  | succ n ih =>
    intro cs hcs w r h
    match cs with
    | [] => rw [scanDoubleQ.eq_def] at h; simp at h
    | c :: rest =>
      simp only [List.length_cons] at hcs
      by_cases h1 : c = '"'
      · rw [scanDoubleQ.eq_def] at h
        simp only [if_pos h1] at h
        cases h
        simp
      · by_cases h2 : c = '\\'
        · rw [scanDoubleQ.eq_def] at h
          simp only [if_neg h1, if_pos h2] at h
          match rest with
          | [] => simp at h
          | e :: rest2 =>
            have hr2 : rest2.length ≤ n := by
              simp only [List.length_cons] at hcs
              omega
            replace h : (if e = '"' ∨ e = '\\' then
                Option.map (fun p => (e :: p.1, p.2)) (scanDoubleQ rest2)
              else Option.map (fun p => ('\\' :: e :: p.1, p.2))
                (scanDoubleQ rest2)) = some (w, r) := h
            by_cases h3 : e = '"' ∨ e = '\\'
            · rw [if_pos h3] at h
              match hs : scanDoubleQ rest2 with
              | none => rw [hs] at h; simp at h
              | some (w2, r2) =>
                rw [hs] at h
                simp at h
                obtain ⟨hh1, hh2⟩ := h
                subst hh2
                have := ih rest2 hr2 hs
                simp only [List.length_cons]
                omega
            · rw [if_neg h3] at h
              match hs : scanDoubleQ rest2 with
              | none => rw [hs] at h; simp at h
              | some (w2, r2) =>
                rw [hs] at h
                simp at h
                obtain ⟨hh1, hh2⟩ := h
                subst hh2
                have := ih rest2 hr2 hs
                simp only [List.length_cons]
                omega
        · rw [scanDoubleQ.eq_def] at h
          simp only [if_neg h1, if_neg h2] at h
          match hs : scanDoubleQ rest with
          | none => rw [hs] at h; simp at h
          | some (w2, r2) =>
            rw [hs] at h
            simp at h
            obtain ⟨hh1, hh2⟩ := h
            subst hh2
            have := ih rest (by omega) hs
            simp only [List.length_cons]
            omega

theorem scanDoubleQ_length {cs w r : List Char}
    (h : scanDoubleQ cs = some (w, r)) : r.length < cs.length :=
  scanDoubleQ_length_aux cs.length cs (le_refl _) h

/-- Python `shlex.split` in POSIX mode (used at common.py:306 and 309):
split on whitespace, honouring single quotes, double quotes and backslash
escapes.  `cur` is the word under construction (`some []` is a started but
empty word, as after `''`).  Structural recursion on a fuel that the
wrapper `shlexRun` always supplies sufficiently (`shlexAuxF_norm`). -/
def shlexAuxF : Nat → List Char → Option (List Char) → Option (List (List Char))
  | _, [], cur =>
    match cur with
    | none => some []
    | some w => some [w]
  | 0, _ :: _, _ => none
  | fuel + 1, c :: rest, cur =>
    if isShlexBlank c then
      match cur with
      | none => shlexAuxF fuel rest none
      | some w => (shlexAuxF fuel rest none).map (w :: ·)
    else if c = '\'' then
      match scanSingleQ rest with
      | none => none
      | some p => shlexAuxF fuel p.2 (some (cur.getD [] ++ p.1))
    else if c = '"' then
      match scanDoubleQ rest with
      | none => none
      | some p => shlexAuxF fuel p.2 (some (cur.getD [] ++ p.1))
    else if c = '\\' then
      match rest with
      | [] => none
      | e :: r2 => shlexAuxF fuel r2 (some (cur.getD [] ++ [e]))
    else shlexAuxF fuel rest (some (cur.getD [] ++ [c]))

theorem shlexAuxF_cons (fuel : Nat) (c : Char) (rest : List Char)
    (cur : Option (List Char)) :
    shlexAuxF (fuel + 1) (c :: rest) cur =
      if isShlexBlank c then
        match cur with
        | none => shlexAuxF fuel rest none
        | some w => (shlexAuxF fuel rest none).map (w :: ·)
      else if c = '\'' then
        match scanSingleQ rest with
        | none => none
        | some p => shlexAuxF fuel p.2 (some (cur.getD [] ++ p.1))
      else if c = '"' then
        match scanDoubleQ rest with
        | none => none
        | some p => shlexAuxF fuel p.2 (some (cur.getD [] ++ p.1))
      else if c = '\\' then
        match rest with
        | [] => none
        | e :: r2 => shlexAuxF fuel r2 (some (cur.getD [] ++ [e]))
      else shlexAuxF fuel rest (some (cur.getD [] ++ [c])) := rfl

theorem shlexAuxF_norm :
    ∀ (f : Nat) (cs : List Char) (cur : Option (List Char)), cs.length ≤ f →
      shlexAuxF f cs cur = shlexAuxF cs.length cs cur := by
  intro f
  induction f using Nat.strong_induction_on with
  | _ f ih =>
    intro cs cur hlen
    match f, cs with
    | f, [] =>
      match f with
      | 0 => rfl
      | f + 1 => rfl
    | 0, c :: rest =>
      simp at hlen
    | f + 1, c :: rest =>
      have hrest : rest.length ≤ f := by
        simp only [List.length_cons] at hlen
        omega
      show shlexAuxF (f + 1) (c :: rest) cur =
        shlexAuxF (rest.length + 1) (c :: rest) cur
      rw [shlexAuxF_cons, shlexAuxF_cons]
      split
      · match cur with
        | none =>
          rw [ih f (by omega) rest none hrest]
        | some w =>
          rw [ih f (by omega) rest none hrest]
      · split
        · match hs : scanSingleQ rest with
          | none => rfl
          | some p =>
            have hl := scanSingleQ_length (show scanSingleQ rest = some (p.1, p.2) by rw [hs])
            change shlexAuxF f p.2 (some (cur.getD [] ++ p.1)) =
              shlexAuxF rest.length p.2 (some (cur.getD [] ++ p.1))
            rw [ih f (by omega) p.2 _ (by omega),
              ih rest.length (by omega) p.2 _ (by omega)]
        · split
          · match hs : scanDoubleQ rest with
            | none => rfl
            | some p =>
              have hl := scanDoubleQ_length (show scanDoubleQ rest = some (p.1, p.2) by rw [hs])
              change shlexAuxF f p.2 (some (cur.getD [] ++ p.1)) =
                shlexAuxF rest.length p.2 (some (cur.getD [] ++ p.1))
              rw [ih f (by omega) p.2 _ (by omega),
                ih rest.length (by omega) p.2 _ (by omega)]
          · split
            · match rest, hrest with
              | [], _ => rfl
              | e :: r2, hrest =>
                change shlexAuxF f r2 (some (cur.getD [] ++ [e])) =
                  shlexAuxF (e :: r2).length r2 (some (cur.getD [] ++ [e]))
                have h2 : r2.length ≤ f := by
                  simp only [List.length_cons] at hrest
                  omega
                rw [ih f (by omega) r2 _ h2,
                  ih (e :: r2).length (by simp only [List.length_cons] at hrest ⊢; omega)
                    r2 _ (by simp)]
            · rw [ih f (by omega) rest _ hrest,
                ih rest.length (by omega) rest _ (le_refl _)]

/-- `shlexAuxF` with its canonical fuel: the tokenizer state machine proper. -/
def shlexRun (cs : List Char) (cur : Option (List Char)) :
    Option (List (List Char)) :=
  shlexAuxF cs.length cs cur

theorem shlexRun_nil (cur : Option (List Char)) :
    shlexRun [] cur = match cur with
      | none => some []
      | some w => some [w] := rfl

theorem shlexRun_cons (c : Char) (rest : List Char) (cur : Option (List Char)) :
    shlexRun (c :: rest) cur =
      if isShlexBlank c then
        match cur with
        | none => shlexRun rest none
        | some w => (shlexRun rest none).map (w :: ·)
      else if c = '\'' then
        match scanSingleQ rest with
        | none => none
        | some p => shlexRun p.2 (some (cur.getD [] ++ p.1))
      else if c = '"' then
        match scanDoubleQ rest with
        | none => none
        | some p => shlexRun p.2 (some (cur.getD [] ++ p.1))
      else if c = '\\' then
        match rest with
        | [] => none
        | e :: r2 => shlexRun r2 (some (cur.getD [] ++ [e]))
      else shlexRun rest (some (cur.getD [] ++ [c])) := by
  show shlexAuxF (rest.length + 1) (c :: rest) cur = _
  rw [shlexAuxF_cons]
  unfold shlexRun
  split
  · match cur with
    | none => rfl
    | some w => rfl
  · split
    · match hs : scanSingleQ rest with
      | none => rfl
      | some p =>
        have hl := scanSingleQ_length (show scanSingleQ rest = some (p.1, p.2) by rw [hs])
        change shlexAuxF rest.length p.2 (some (cur.getD [] ++ p.1)) =
          shlexAuxF p.2.length p.2 (some (cur.getD [] ++ p.1))
        rw [shlexAuxF_norm rest.length p.2 _ (by omega)]
    · split
      · match hs : scanDoubleQ rest with
        | none => rfl
        | some p =>
          have hl := scanDoubleQ_length (show scanDoubleQ rest = some (p.1, p.2) by rw [hs])
          change shlexAuxF rest.length p.2 (some (cur.getD [] ++ p.1)) =
            shlexAuxF p.2.length p.2 (some (cur.getD [] ++ p.1))
          rw [shlexAuxF_norm rest.length p.2 _ (by omega)]
      · split
        · match rest with
          | [] => rfl
          | e :: r2 =>
            change shlexAuxF (e :: r2).length r2 (some (cur.getD [] ++ [e])) =
              shlexAuxF r2.length r2 (some (cur.getD [] ++ [e]))
            rw [shlexAuxF_norm (e :: r2).length r2 _ (by simp)]
        · rfl

/-- Python `shlex.split` (POSIX mode, as imported by common.py). -/
def shlex_split (cs : List Char) : Option (List (List Char)) :=
  shlexRun cs none

/-- Characters that `shlex.quote` leaves unquoted: letters, digits and
the punctuation `_ @ % + = : , .` plus slash and dash. -/
def isShlexSafe (c : Char) : Bool :=
  c.isAlpha || c.isDigit || c = '_' || c = '@' || c = '%' || c = '+' ||
    c = '=' || c = ':' || c = ',' || c = '.' || c = '/' || c = '-'

/-- Inside the single-quoted form, each `'` becomes `'"'"'`. -/
def escQuoteChar (c : Char) : List Char :=
  if c = '\'' then ['\'', '"', '\'', '"', '\''] else [c]

/-- Python `shlex.quote` (common.py:254-257, `shlex_quote`): the empty
string becomes `''`; a string of safe characters is returned as is; anything
else is wrapped in single quotes with `'` → `'"'"'`. -/
def shlex_quote (cs : List Char) : List Char :=
  if cs.isEmpty then ['\'', '\'']
  else if cs.all isShlexSafe then cs
  else '\'' :: (cs.flatMap escQuoteChar) ++ ['\'']

def isIdStart (c : Char) : Bool := c.isAlpha || c = '_'

def isIdChar (c : Char) : Bool := c.isAlpha || c.isDigit || c = '_'

/-- Python `string.Template.substitute` with delimiter `%`
(common.py:259-260 and 312): `%%` is a literal `%`, `%name` is replaced by
the mapping entry for the longest identifier `name`; a `%` followed by
neither is an error (`none`), as is a missing key.  The braced `%{name}`
form is not used by shebang templates and is out of scope. -/
def templateSubst (mapping : List (List Char × List Char)) :
    List Char → Option (List Char)
  | [] => some []
  | c :: rest =>
    if c = '%' then
      match rest with
      | [] => none
      | c2 :: rest2 =>
        if c2 = '%' then (templateSubst mapping rest2).map ('%' :: ·)
        else if isIdStart c2 then
          match List.lookup (c2 :: rest2.takeWhile isIdChar) mapping with
          | some v =>
            (templateSubst mapping (rest2.dropWhile isIdChar)).map (v ++ ·)
          | none => none
        else none
    else (templateSubst mapping rest).map (c :: ·)
termination_by cs => cs.length
decreasing_by
  all_goals simp only [List.length_cons]
  all_goals first
    | omega
    | (exact Nat.lt_of_le_of_lt (length_dropWhile_le _ _) (by omega))

/-- A token value of `ShebangTemplate.quote_and_substitute`: a plain string
or a list of strings (common.py:299-303). -/
inductive TokVal where
  | str (v : List Char) : TokVal
  | list (vs : List (List Char)) : TokVal
deriving Repr, DecidableEq

/-- common.py:299-303 — a string value is quoted as one shell word; each
element of a list value is quoted individually and the results joined with
spaces, not re-quoted as a whole. -/
def quoteTokVal : TokVal → List Char
  | .str v => shlex_quote v
  | .list vs => List.intercalate [' '] (vs.map shlex_quote)

def quotedTokens (tokens : List (List Char × TokVal)) :
    List (List Char × List Char) :=
  tokens.map fun p => (p.1, quoteTokVal p.2)

/-- common.py:262-320 — `ShebangTemplate.quote_and_substitute`: quote every
token value, split the template into shell words, and for each word decide
*before* expansion whether it tokenizes into more than one shell word; then
substitute the quoted values into the word and re-quote it if it did. -/
def quote_and_substitute (template : List Char)
    (tokens : List (List Char × TokVal)) : Option (List Char) := do
  let qt := quotedTokens tokens
  let words ← shlex_split template
  let outs ← words.mapM fun x => do
    let xs ← shlex_split x
    let x' ← templateSubst qt x
    pure (if xs.length > 1 then shlex_quote x' else x')
  pure (List.intercalate [' '] outs)

/-- A character that, outside quotes, is simply appended to the current
word: not whitespace, not a quote of either kind, not a backslash. -/
def isOrdChar (c : Char) : Bool :=
  !isShlexBlank c && !(c == '\'') && !(c == '"') && !(c == '\\')

theorem blank_chars {c : Char} (h : isShlexBlank c = true) :
    c = ' ' ∨ c = Char.ofNat 9 ∨ c = Char.ofNat 13 ∨ c = Char.ofNat 10 := by
  simpa [isShlexBlank, or_assoc] using h

theorem safe_isOrd {c : Char} (h : isShlexSafe c = true) : isOrdChar c = true := by
  have hb : isShlexBlank c = false := by
    cases hbb : isShlexBlank c
    · rfl
    · rcases blank_chars hbb with rfl | rfl | rfl | rfl <;>
        exact absurd h (by decide)
  have hq : (c == '\'') = false := by
    cases hqq : c == '\''
    · rfl
    · have he : c = '\'' := by simpa using hqq
      subst he; exact absurd h (by decide)
  have hd : (c == '"') = false := by
    cases hdd : c == '"'
    · rfl
    · have he : c = '"' := by simpa using hdd
      subst he; exact absurd h (by decide)
  have hbs : (c == '\\') = false := by
    cases hss : c == '\\'
    · rfl
    · have he : c = '\\' := by simpa using hss
      subst he; exact absurd h (by decide)
  simp [isOrdChar, hb, hq, hd, hbs]

theorem idChar_isOrd {c : Char} (h : isIdChar c = true) : isOrdChar c = true := by
  apply safe_isOrd
  simp only [isIdChar, Bool.or_eq_true] at h
  rcases h with (h | h) | h <;> simp [isShlexSafe, h]

theorem ordChar_elim {c : Char} (h : isOrdChar c = true) :
    isShlexBlank c = false ∧ ¬(c = '\'') ∧ ¬(c = '"') ∧ ¬(c = '\\') := by
  simp only [isOrdChar, Bool.and_eq_true, Bool.not_eq_eq_eq_not, Bool.not_true,
    beq_eq_false_iff_ne, ne_eq] at h
  exact ⟨h.1.1.1, h.1.1.2, h.1.2, h.2⟩

theorem shlexRun_all_ord_some :
    ∀ (cs : List Char) (w : List Char), cs.all isOrdChar = true →
      shlexRun cs (some w) = some [w ++ cs] := by
  intro cs
  induction cs with
  | nil => intro w _; simp [shlexRun_nil]
  | cons c rest ih =>
    intro w hall
    simp only [List.all_cons, Bool.and_eq_true] at hall
    obtain ⟨hc, hrest⟩ := hall
    obtain ⟨hb, hq, hd, hbs⟩ := ordChar_elim hc
    rw [shlexRun_cons]
    rw [hb]
    simp only [Bool.false_eq_true, if_false, if_neg hq, if_neg hd, if_neg hbs,
      Option.getD_some]
    rw [ih (w ++ [c]) hrest]
    simp

theorem shlex_split_all_ord (c : Char) (rest : List Char)
    (hall : (c :: rest).all isOrdChar = true) :
    shlex_split (c :: rest) = some [c :: rest] := by
  simp only [List.all_cons, Bool.and_eq_true] at hall
  obtain ⟨hc, hrest⟩ := hall
  obtain ⟨hb, hq, hd, hbs⟩ := ordChar_elim hc
  rw [shlex_split, shlexRun_cons]
  rw [hb]
  simp only [Bool.false_eq_true, if_false, if_neg hq, if_neg hd, if_neg hbs,
    Option.getD_none, List.nil_append]
  rw [shlexRun_all_ord_some rest [c] hrest]
  simp

theorem scanSingleQ_pref :
    ∀ (p r : List Char), p.all (fun c => !(c == '\'')) = true →
      scanSingleQ (p ++ '\'' :: r) = some (p, r) := by
  intro p
  induction p with
  | nil => intro r _; simp [scanSingleQ]
  | cons c p ih =>
    intro r hall
    simp only [List.all_cons, Bool.and_eq_true] at hall
    obtain ⟨hc, hp⟩ := hall
    have hcc : ¬(c = '\'') := by simpa using hc
    simp only [List.cons_append]
    rw [scanSingleQ, if_neg hcc, ih r hp]
    rfl

theorem flatMap_esc_no_quote :
    ∀ (p : List Char), p.all (fun c => !(c == '\'')) = true →
      p.flatMap escQuoteChar = p := by
  intro p
  induction p with
  | nil => intro _; rfl
  | cons c p ih =>
    intro hall
    simp only [List.all_cons, Bool.and_eq_true] at hall
    obtain ⟨hc, hp⟩ := hall
    have hcc : ¬(c = '\'') := by simpa using hc
    rw [List.flatMap_cons, escQuoteChar, if_neg hcc, ih hp]
    rfl

theorem scanSingleQ_append :
    ∀ (xs : List Char) (p : List Char × List Char), scanSingleQ xs = some p →
      ∀ ys, scanSingleQ (xs ++ ys) = some (p.1, p.2 ++ ys) := by
  intro xs
  induction xs with
  | nil => intro p h; simp [scanSingleQ] at h
  | cons c rest ih =>
    intro p h ys
    rw [scanSingleQ] at h
    simp only [List.cons_append]
    rw [scanSingleQ]
    split at h
    · cases h
      rename_i hc
      rw [if_pos hc]
    · rename_i hc
      rw [if_neg hc]
      match hs : scanSingleQ rest with
      | none => rw [hs] at h; simp at h
      | some p2 =>
        rw [hs] at h
        simp only [Option.map_some'] at h
        cases h
        rw [ih p2 hs ys]
        rfl

theorem scanDoubleQ_append_aux :
    ∀ (n : Nat) (xs : List Char), xs.length ≤ n →
      ∀ (p : List Char × List Char), scanDoubleQ xs = some p →
      ∀ ys, scanDoubleQ (xs ++ ys) = some (p.1, p.2 ++ ys) := by
  intro n
  induction n with
  | zero =>
    intro xs hxs p h ys
    have : xs = [] := List.length_eq_zero.mp (Nat.le_zero.mp hxs)
    subst this
    rw [scanDoubleQ.eq_def] at h
    simp at h
  | succ n ih =>
    intro xs hxs p h ys
    match xs with
    | [] =>
      rw [scanDoubleQ.eq_def] at h
      simp at h
    | c :: rest =>
      simp only [List.length_cons] at hxs
      simp only [List.cons_append]
      by_cases h1 : c = '"'
      · rw [scanDoubleQ.eq_def] at h
        simp only [if_pos h1] at h
        cases h
        rw [scanDoubleQ.eq_def]
        simp only [if_pos h1]
      · by_cases h2 : c = '\\'
        · rw [scanDoubleQ.eq_def] at h
          simp only [if_neg h1, if_pos h2] at h
          rw [scanDoubleQ.eq_def]
          simp only [if_neg h1, if_pos h2]
          match rest with
          | [] => simp at h
          | e :: rest2 =>
            have hr2 : rest2.length ≤ n := by
              simp only [List.length_cons] at hxs
              omega
            replace h : (if e = '"' ∨ e = '\\' then
                Option.map (fun p => (e :: p.1, p.2)) (scanDoubleQ rest2)
              else Option.map (fun p => ('\\' :: e :: p.1, p.2))
                (scanDoubleQ rest2)) = some p := h
            show (if e = '"' ∨ e = '\\' then
                Option.map (fun p => (e :: p.1, p.2)) (scanDoubleQ (rest2 ++ ys))
              else Option.map (fun p => ('\\' :: e :: p.1, p.2))
                (scanDoubleQ (rest2 ++ ys))) = some (p.1, p.2 ++ ys)
            by_cases h3 : e = '"' ∨ e = '\\'
            · rw [if_pos h3] at h ⊢
              match hs : scanDoubleQ rest2 with
              | none => rw [hs] at h; simp at h
              | some p2 =>
                rw [hs] at h
                simp only [Option.map_some'] at h
                cases h
                rw [ih rest2 hr2 p2 hs ys]
                rfl
            · rw [if_neg h3] at h ⊢
              match hs : scanDoubleQ rest2 with
              | none => rw [hs] at h; simp at h
              | some p2 =>
                rw [hs] at h
                simp only [Option.map_some'] at h
                cases h
                rw [ih rest2 hr2 p2 hs ys]
                rfl
        · rw [scanDoubleQ.eq_def] at h
          simp only [if_neg h1, if_neg h2] at h
          rw [scanDoubleQ.eq_def]
          simp only [if_neg h1, if_neg h2]
          match hs : scanDoubleQ rest with
          | none => rw [hs] at h; simp at h
          | some p2 =>
            rw [hs] at h
            simp only [Option.map_some'] at h
            cases h
            rw [ih rest (by omega) p2 hs ys]
            rfl

theorem scanDoubleQ_append {xs : List Char} {p : List Char × List Char}
    (h : scanDoubleQ xs = some p) (ys : List Char) :
    scanDoubleQ (xs ++ ys) = some (p.1, p.2 ++ ys) :=
  scanDoubleQ_append_aux xs.length xs (le_refl _) p h ys

theorem scanDoubleQ_squote (r : List Char) :
    scanDoubleQ ('\'' :: '"' :: r) = some (['\''], r) := by
  rw [scanDoubleQ.eq_def]
  simp only [show ¬('\'' : Char) = '"' from by decide,
    show ¬('\'' : Char) = '\\' from by decide, if_false]
  rw [show scanDoubleQ ('"' :: r) = some ([], r) from by
    rw [scanDoubleQ.eq_def]; simp]
  rfl

theorem shlexRun_quoted_aux :
    ∀ (n : Nat) (cs : List Char), cs.length ≤ n → ∀ (cur : Option (List Char)),
      shlexRun ('\'' :: (cs.flatMap escQuoteChar ++ ['\''])) cur =
        some [cur.getD [] ++ cs] := by
  intro n
  induction n with
  | zero =>
    intro cs hcs cur
    have hcs0 : cs = [] := List.length_eq_zero.mp (Nat.le_zero.mp hcs)
    subst hcs0
    rw [List.flatMap_nil, List.nil_append, shlexRun_cons]
    rw [show isShlexBlank '\'' = false from rfl]
    simp only [Bool.false_eq_true, if_false, if_true]
    rw [show scanSingleQ ['\''] = some ([], []) from rfl]
    show shlexRun [] (some (cur.getD [] ++ [])) = some [cur.getD [] ++ []]
    rfl
  | succ n ih =>
    intro cs hcs cur
    have hall : (cs.takeWhile (fun c => !(c == '\''))).all
        (fun c => !(c == '\'')) = true := by
      rw [List.all_eq_true]
      intro x hx
      exact List.mem_takeWhile_imp (p := fun c => !(c == '\'')) hx
    match hd : cs.dropWhile (fun c => !(c == '\'')) with
    | [] =>
      have hcsp : cs = cs.takeWhile (fun c => !(c == '\'')) := by
        conv_lhs => rw [← List.takeWhile_append_dropWhile
          (p := fun c => !(c == '\'')) (l := cs)]
        rw [hd, List.append_nil]
      rw [hcsp, flatMap_esc_no_quote _ hall, shlexRun_cons]
      rw [show isShlexBlank '\'' = false from rfl]
      simp only [Bool.false_eq_true, if_false, if_true]
      rw [show (cs.takeWhile (fun c => !(c == '\''))) ++ ['\''] =
        (cs.takeWhile (fun c => !(c == '\''))) ++ '\'' :: [] from rfl]
      rw [scanSingleQ_pref _ [] hall]
      show shlexRun []
        (some (cur.getD [] ++ cs.takeWhile (fun c => !(c == '\'')))) = _
      rw [shlexRun_nil]
    | c' :: q =>
      have hcq : c' = '\'' := by
        have hh := List.head?_dropWhile_not (fun c => !(c == '\'')) cs
        rw [hd] at hh
        simpa using hh
      subst hcq
      have hcs_decomp : cs = cs.takeWhile (fun c => !(c == '\'')) ++ '\'' :: q := by
        conv_lhs => rw [← List.takeWhile_append_dropWhile
          (p := fun c => !(c == '\'')) (l := cs)]
        rw [hd]
      have hqlen : q.length ≤ n := by
        have hlen := congrArg List.length hcs_decomp
        simp only [List.length_append, List.length_cons] at hlen
        omega
      have hshape : cs.flatMap escQuoteChar =
          cs.takeWhile (fun c => !(c == '\'')) ++
            '\'' :: '"' :: '\'' :: '"' :: '\'' :: q.flatMap escQuoteChar := by
        conv_lhs => rw [hcs_decomp]
        rw [List.flatMap_append, flatMap_esc_no_quote _ hall, List.flatMap_cons]
        rw [show escQuoteChar '\'' = ['\'', '"', '\'', '"', '\''] from rfl]
        rfl
      rw [hshape, shlexRun_cons]
      rw [show isShlexBlank '\'' = false from rfl]
      simp only [Bool.false_eq_true, if_false, if_true]
      rw [show (cs.takeWhile (fun c => !(c == '\'')) ++
          '\'' :: '"' :: '\'' :: '"' :: '\'' :: q.flatMap escQuoteChar) ++ ['\''] =
        cs.takeWhile (fun c => !(c == '\'')) ++
          '\'' :: ('"' :: '\'' :: '"' :: '\'' :: (q.flatMap escQuoteChar ++ ['\''])) from
        by simp]
      rw [scanSingleQ_pref _ _ hall]
      show shlexRun ('"' :: '\'' :: '"' :: '\'' :: (q.flatMap escQuoteChar ++ ['\'']))
        (some (cur.getD [] ++ cs.takeWhile (fun c => !(c == '\'')))) = _
      rw [shlexRun_cons]
      rw [show isShlexBlank '"' = false from rfl]
      simp only [Bool.false_eq_true, if_false]
      simp only [if_true]
      rw [scanDoubleQ_squote]
      show shlexRun ('\'' :: (q.flatMap escQuoteChar ++ ['\'']))
        (some ((cur.getD [] ++ cs.takeWhile (fun c => !(c == '\''))) ++ ['\''])) = _
      rw [ih q hqlen]
      conv_rhs => rw [hcs_decomp]
      simp

theorem shlex_split_quote (v : List Char) :
    shlex_split (shlex_quote v) = some [v] := by
  by_cases hemp : v.isEmpty
  · have hv : v = [] := List.isEmpty_iff.mp hemp
    subst hv
    rfl
  · by_cases hsafe : v.all isShlexSafe
    · rw [shlex_quote, if_neg (by simp [hemp]), if_pos hsafe]
      match v, hemp with
      | c :: rest, _ =>
        apply shlex_split_all_ord
        rw [List.all_eq_true] at hsafe ⊢
        intro x hx
        exact safe_isOrd (hsafe x hx)
    · rw [shlex_quote, if_neg (by simp [hemp]), if_neg hsafe]
      have h := shlexRun_quoted_aux v.length v (le_refl _) none
      simpa [shlex_split] using h

theorem shlexRun_append_blank_aux :
    ∀ (n : Nat) (a : List Char), a.length ≤ n →
      ∀ (cur : Option (List Char)) (as : List (List Char)) (b : List Char),
      shlexRun a cur = some as →
      shlexRun (a ++ ' ' :: b) cur = (shlexRun b none).map (as ++ ·) := by
  intro n
  induction n with
  | zero =>
    intro a ha cur as b h
    have ha0 : a = [] := List.length_eq_zero.mp (Nat.le_zero.mp ha)
    subst ha0
    rw [shlexRun_nil] at h
    simp only [List.nil_append]
    rw [shlexRun_cons]
    rw [show isShlexBlank ' ' = true from rfl]
    simp only [if_true]
    match cur, h with
    | none, h =>
      cases h
      match hb : shlexRun b none with
      | none => rfl
      | some bs => simp [hb]
    | some w, h =>
      cases h
      match hb : shlexRun b none with
      | none => rfl
      | some bs => simp [hb]
  | succ n ih =>
    intro a ha cur as b h
    match a with
    | [] =>
      rw [shlexRun_nil] at h
      simp only [List.nil_append]
      rw [shlexRun_cons]
      rw [show isShlexBlank ' ' = true from rfl]
      simp only [if_true]
      match cur, h with
      | none, h =>
        cases h
        match hb : shlexRun b none with
        | none => rfl
        | some bs => simp [hb]
      | some w, h =>
        cases h
        match hb : shlexRun b none with
        | none => rfl
        | some bs => simp [hb]
    | c :: rest =>
      simp only [List.length_cons] at ha
      rw [shlexRun_cons] at h
      simp only [List.cons_append]
      rw [shlexRun_cons]
      by_cases hbl : isShlexBlank c
      · rw [hbl] at h ⊢
        simp only [if_true] at h ⊢
        match cur, h with
        | none, h => exact ih rest (by omega) none as b h
        | some w, h =>
          match hr : shlexRun rest none with
          | none => rw [hr] at h; simp at h
          | some as' =>
            rw [hr] at h
            simp only [Option.map_some'] at h
            cases h
            rw [ih rest (by omega) none as' b hr]
            match hb : shlexRun b none with
            | none => rfl
            | some bs => simp [hb]
      · rw [Bool.eq_false_iff.mpr hbl] at h ⊢
        simp only [Bool.false_eq_true, if_false] at h ⊢
        by_cases hq : c = '\''
        · rw [if_pos hq] at h ⊢
          match hs : scanSingleQ rest with
          | none => rw [hs] at h; simp at h
          | some p =>
            rw [hs] at h
            rw [scanSingleQ_append rest p hs (' ' :: b)]
            have hlt := scanSingleQ_length (show scanSingleQ rest = some (p.1, p.2) by rw [hs])
            exact ih p.2 (by omega) _ as b h
        · rw [if_neg hq] at h ⊢
          by_cases hdq : c = '"'
          · rw [if_pos hdq] at h ⊢
            match hs : scanDoubleQ rest with
            | none => rw [hs] at h; simp at h
            | some p =>
              rw [hs] at h
              rw [scanDoubleQ_append hs (' ' :: b)]
              have hlt := scanDoubleQ_length (show scanDoubleQ rest = some (p.1, p.2) by rw [hs])
              exact ih p.2 (by omega) _ as b h
          · rw [if_neg hdq] at h ⊢
            by_cases hbs : c = '\\'
            · rw [if_pos hbs] at h ⊢
              match rest, ha, h with
              | [], _, h => simp at h
              | e :: r2, ha, h =>
                show shlexRun (r2 ++ ' ' :: b) (some (cur.getD [] ++ [e])) = _
                have hr2 : r2.length ≤ n := by
                  simp only [List.length_cons] at ha
                  omega
                exact ih r2 hr2 _ as b h
            · rw [if_neg hbs] at h ⊢
              exact ih rest (by omega) _ as b h

theorem shlexRun_append_blank {a : List Char} {cur : Option (List Char)}
    {as : List (List Char)} (b : List Char) (h : shlexRun a cur = some as) :
    shlexRun (a ++ ' ' :: b) cur = (shlexRun b none).map (as ++ ·) :=
  shlexRun_append_blank_aux a.length a (le_refl _) cur as b h

/-- Splitting the space-join of independently tokenizable chunks
concatenates their tokenizations. -/
theorem shlex_split_intercalate :
    ∀ (outs : List (List Char)) (oss : List (List (List Char))),
      List.Forall₂ (fun o os => shlex_split o = some os) outs oss →
      shlex_split (List.intercalate [' '] outs) = some oss.flatten := by
  intro outs
  induction outs with
  | nil =>
    intro oss h
    cases h
    rfl
  | cons o rest ih =>
    intro oss h
    match oss, h with
    | os :: oss', List.Forall₂.cons ho hrest =>
      match rest, oss', hrest with
      | [], [], _ =>
        simp only [List.intercalate, List.intersperse, List.flatten,
          List.flatten_nil, List.append_nil]
        simpa using ho
      | r2 :: rest2, os2 :: oss2, hrest =>
        have hstep : List.intercalate [' '] (o :: r2 :: rest2) =
            o ++ ' ' :: List.intercalate [' '] (r2 :: rest2) := by
          simp [List.intercalate, List.intersperse]
        rw [hstep]
        have ho' : shlexRun o none = some os := ho
        show shlexRun (o ++ ' ' :: List.intercalate [' '] (r2 :: rest2)) none = _
        rw [shlexRun_append_blank _ ho']
        have hih : shlexRun (List.intercalate [' '] (r2 :: rest2)) none =
            some (os2 :: oss2).flatten := ih (os2 :: oss2) hrest
        rw [hih]
        simp

theorem shlex_split_join_quote (vs : List (List Char)) :
    shlex_split (List.intercalate [' '] (vs.map shlex_quote)) = some vs := by
  have hfa : List.Forall₂ (fun o os => shlex_split o = some os)
      (vs.map shlex_quote) (vs.map (fun v => [v])) := by
    induction vs with
    | nil => exact List.Forall₂.nil
    | cons v rest ih =>
      exact List.Forall₂.cons (shlex_split_quote v) ih
  rw [shlex_split_intercalate (vs.map shlex_quote) (vs.map (fun v => [v])) hfa]
  have hflat : ∀ (ws : List (List Char)), (ws.map (fun v => [v])).flatten = ws := by
    intro ws
    induction ws with
    | nil => rfl
    | cons w r ihw => simp only [List.map_cons, List.flatten_cons, ihw]; rfl
  rw [hflat]

theorem templateSubst_nil (m : List (List Char × List Char)) :
    templateSubst m [] = some [] := by
  rw [templateSubst.eq_def]

theorem templateSubst_cons (m : List (List Char × List Char)) (c : Char)
    (rest : List Char) :
    templateSubst m (c :: rest) =
      if c = '%' then
        match rest with
        | [] => none
        | c2 :: rest2 =>
          if c2 = '%' then (templateSubst m rest2).map ('%' :: ·)
          else if isIdStart c2 then
            match List.lookup (c2 :: rest2.takeWhile isIdChar) m with
            | some v => (templateSubst m (rest2.dropWhile isIdChar)).map (v ++ ·)
            | none => none
          else none
      else (templateSubst m rest).map (c :: ·) := by
  rw [templateSubst.eq_def]

theorem templateSubst_no_delim :
    ∀ (cs : List Char) (m : List (List Char × List Char)),
      cs.all (fun c => !(c == '%')) = true → templateSubst m cs = some cs := by
  intro cs
  induction cs with
  | nil => intro m _; exact templateSubst_nil m
  | cons c rest ih =>
    intro m hall
    simp only [List.all_cons, Bool.and_eq_true] at hall
    obtain ⟨hc, hrest⟩ := hall
    have hcc : ¬(c = '%') := by simpa using hc
    rw [templateSubst_cons, if_neg hcc, ih m hrest]
    rfl

theorem lookup_quotedTokens (k : List Char) (tokens : List (List Char × TokVal)) :
    List.lookup k (quotedTokens tokens) =
      (List.lookup k tokens).map quoteTokVal := by
  induction tokens with
  | nil => rfl
  | cons p rest ih =>
    rw [quotedTokens, List.map_cons, List.lookup, List.lookup]
    by_cases hk : k == p.1
    · simp [hk]
    · simp only [Bool.not_eq_true] at hk
      rw [hk]
      simpa [quotedTokens] using ih

theorem idStart_ne_delim {c : Char} (h : isIdStart c = true) : ¬(c = '%') := by
  intro he
  subst he
  exact absurd h (by decide)

/-- Substituting a word that is exactly one `%`-token replaces it by the
mapping entry. -/
theorem templateSubst_single_token (m : List (List Char × List Char))
    (c : Char) (ks : List Char) (v : List Char)
    (hstart : isIdStart c = true) (hks : ks.all isIdChar = true)
    (hlook : List.lookup (c :: ks) m = some v) :
    templateSubst m ('%' :: c :: ks) = some v := by
  rw [templateSubst_cons, if_pos rfl]
  have hcne : ¬(c = '%') := idStart_ne_delim hstart
  have htake : ks.takeWhile isIdChar = ks :=
    List.takeWhile_eq_self_iff.mpr (fun x hx => by
      rw [List.all_eq_true] at hks
      exact hks x hx)
  have hdrop : ks.dropWhile isIdChar = [] :=
    List.dropWhile_eq_nil_iff.mpr (fun x hx => by
      rw [List.all_eq_true] at hks
      exact hks x hx)
  show (if c = '%' then (templateSubst m ks).map ('%' :: ·)
    else if isIdStart c then
      match List.lookup (c :: ks.takeWhile isIdChar) m with
      | some v => (templateSubst m (ks.dropWhile isIdChar)).map (v ++ ·)
      | none => none
    else none) = some v
  rw [if_neg hcne, if_pos hstart, htake, hdrop, hlook]
  show (templateSubst m []).map (fun x => v ++ x) = some v
  rw [templateSubst_nil]
  simp

/-- A character of a plain template word: ordinary for the tokenizer and
not the `%` delimiter. -/
def isPlainChar (c : Char) : Bool :=
  isOrdChar c && !(c == '%')

theorem idStart_isOrd {c : Char} (h : isIdStart c = true) : isOrdChar c = true := by
  apply safe_isOrd
  simp only [isIdStart, Bool.or_eq_true] at h
  rcases h with h | h <;> simp [isShlexSafe, h]

/-- The shapes of template words covered by the word-boundary theorem,
each paired with the shell words it is intended to contribute to the final
command: a plain literal word contributes itself; a word that is exactly a
`%`-token with a string value contributes that string as one word; one with
a list value contributes the list elementwise; a word that re-tokenizes
into several shell words contributes its substituted text as one word
(re-quoted by the implementation). -/
inductive WordSpec (tokens : List (List Char × TokVal)) :
    List Char → List (List Char) → Prop
  | plain (c : Char) (rest : List Char)
      (hall : (c :: rest).all isPlainChar = true) :
      WordSpec tokens (c :: rest) [c :: rest]
  | strTok (c : Char) (ks : List Char) (v : List Char)
      (hstart : isIdStart c = true) (hks : ks.all isIdChar = true)
      (hlook : List.lookup (c :: ks) tokens = some (.str v)) :
      WordSpec tokens ('%' :: c :: ks) [v]
  | listTok (c : Char) (ks : List Char) (vs : List (List Char))
      (hstart : isIdStart c = true) (hks : ks.all isIdChar = true)
      (hlook : List.lookup (c :: ks) tokens = some (.list vs)) :
      WordSpec tokens ('%' :: c :: ks) vs
  | composite (w x' : List Char) (xs : List (List Char))
      (hsplit : shlex_split w = some xs) (hlen : xs.length > 1)
      (hsubst : templateSubst (quotedTokens tokens) w = some x') :
      WordSpec tokens w [x']

theorem wordSpec_out {tokens : List (List Char × TokVal)} {w : List Char}
    {contrib : List (List Char)} (h : WordSpec tokens w contrib) :
    ∃ out, (do
        let xs ← shlex_split w
        let x' ← templateSubst (quotedTokens tokens) w
        pure (if xs.length > 1 then shlex_quote x' else x') :
          Option (List Char)) = some out ∧
      shlex_split out = some contrib := by
  cases h with
  | plain c rest hall =>
    have hord : (c :: rest).all isOrdChar = true := by
      rw [List.all_eq_true] at hall ⊢
      intro x hx
      have hh := hall x hx
      simp only [isPlainChar, Bool.and_eq_true] at hh
      exact hh.1
    have hnop : (c :: rest).all (fun x => !(x == '%')) = true := by
      rw [List.all_eq_true] at hall ⊢
      intro x hx
      have hh := hall x hx
      simp only [isPlainChar, Bool.and_eq_true] at hh
      exact hh.2
    have hsp := shlex_split_all_ord c rest hord
    have hsub := templateSubst_no_delim (c :: rest) (quotedTokens tokens) hnop
    refine ⟨c :: rest, ?_, hsp⟩
    rw [hsp, hsub]
    simp
  | strTok c ks v hstart hks hlook =>
    have hord : ('%' :: c :: ks).all isOrdChar = true := by
      simp only [List.all_cons, Bool.and_eq_true]
      refine ⟨by decide, idStart_isOrd hstart, ?_⟩
      rw [List.all_eq_true] at hks ⊢
      intro x hx
      exact idChar_isOrd (hks x hx)
    have hsp := shlex_split_all_ord '%' (c :: ks) hord
    have hlook2 : List.lookup (c :: ks) (quotedTokens tokens) =
        some (shlex_quote v) := by
      rw [lookup_quotedTokens, hlook]
      rfl
    have hsub := templateSubst_single_token (quotedTokens tokens) c ks
      (shlex_quote v) hstart hks hlook2
    refine ⟨shlex_quote v, ?_, shlex_split_quote v⟩
    rw [hsp, hsub]
    simp
  | listTok c ks vs hstart hks hlook =>
    have hord : ('%' :: c :: ks).all isOrdChar = true := by
      simp only [List.all_cons, Bool.and_eq_true]
      refine ⟨by decide, idStart_isOrd hstart, ?_⟩
      rw [List.all_eq_true] at hks ⊢
      intro x hx
      exact idChar_isOrd (hks x hx)
    have hsp := shlex_split_all_ord '%' (c :: ks) hord
    have hlook2 : List.lookup (c :: ks) (quotedTokens tokens) =
        some (List.intercalate [' '] (contrib.map shlex_quote)) := by
      rw [lookup_quotedTokens, hlook]
      rfl
    have hsub := templateSubst_single_token (quotedTokens tokens) c ks
      (List.intercalate [' '] (contrib.map shlex_quote)) hstart hks hlook2
    refine ⟨List.intercalate [' '] (contrib.map shlex_quote), ?_,
      shlex_split_join_quote contrib⟩
    rw [hsp, hsub]
    simp
  | composite w x' xs hsplit hlen hsubst =>
    refine ⟨shlex_quote x', ?_, shlex_split_quote x'⟩
    rw [hsplit, hsubst]
    simp [hlen]

theorem mapM_wordSpec {tokens : List (List Char × TokVal)} :
    ∀ {words : List (List Char)} {contribs : List (List (List Char))},
      List.Forall₂ (WordSpec tokens) words contribs →
      ∃ outs, (words.mapM fun x => do
          let xs ← shlex_split x
          let x' ← templateSubst (quotedTokens tokens) x
          pure (if xs.length > 1 then shlex_quote x' else x')) = some outs ∧
        List.Forall₂ (fun o os => shlex_split o = some os) outs contribs := by
  intro words
  induction words with
  | nil =>
    intro contribs h
    cases h
    exact ⟨[], rfl, List.Forall₂.nil⟩
  | cons w rest ih =>
    intro contribs h
    match contribs, h with
    | contrib :: contribs', List.Forall₂.cons hw hrest =>
      obtain ⟨out, hout, hosplit⟩ := wordSpec_out hw
      obtain ⟨outs, houts, hfa⟩ := ih hrest
      refine ⟨out :: outs, ?_, List.Forall₂.cons hosplit hfa⟩
      rw [List.mapM_cons, hout, houts]
      rfl

/-- C7: for every shebang template and token map whose values are strings or
lists of strings, `quote_and_substitute` quotes a string value as a single
shell word, quotes each element of a list value individually joining them
with spaces without re-quoting the list as one word, and re-quotes every
template token that parsed into more than one shell word before
substitution — so that shell-tokenizing the resulting command yields,
elementwise, exactly the shell words each template word intended
(`WordSpec`). -/
theorem quote_and_substitute_word_boundaries (template : List Char)
    (tokens : List (List Char × TokVal)) (twords : List (List Char))
    (contribs : List (List (List Char)))
    (hsplit : shlex_split template = some twords)
    (hspec : List.Forall₂ (WordSpec tokens) twords contribs) :
    ∃ cmd, quote_and_substitute template tokens = some cmd ∧
      shlex_split cmd = some contribs.flatten := by
  obtain ⟨outs, houts, hfa⟩ := mapM_wordSpec hspec
  refine ⟨List.intercalate [' '] outs, ?_,
    shlex_split_intercalate outs contribs hfa⟩
  rw [quote_and_substitute]
  rw [hsplit]
  show ((twords.mapM fun x => do
      let xs ← shlex_split x
      let x' ← templateSubst (quotedTokens tokens) x
      pure (if xs.length > 1 then shlex_quote x' else x')).bind
    fun outs => some (List.intercalate [' '] outs)) = _
  rw [houts]
  rfl

/-- Closed witness for `quote_and_substitute_word_boundaries`: the docstring
shebang `%e %p %a` (common.py:276) with `e = /usr/bin/env`, `p = python`,
`a = [-i, -c, blue = "1"]`. -/
theorem quote_and_substitute_word_boundaries_witness :
    shlex_split "%e %p %a".data =
      some ["%e".data, "%p".data, "%a".data] ∧
    List.Forall₂
      (WordSpec [("e".data, TokVal.str "/usr/bin/env".data),
        ("p".data, TokVal.str "python".data),
        ("a".data, TokVal.list ["-i".data, "-c".data, "blue = \"1\"".data])])
      ["%e".data, "%p".data, "%a".data]
      [["/usr/bin/env".data], ["python".data],
        ["-i".data, "-c".data, "blue = \"1\"".data]] ∧
    ∃ cmd, quote_and_substitute "%e %p %a".data
        [("e".data, TokVal.str "/usr/bin/env".data),
         ("p".data, TokVal.str "python".data),
         ("a".data, TokVal.list ["-i".data, "-c".data, "blue = \"1\"".data])] =
        some cmd ∧
      shlex_split cmd =
        some [["/usr/bin/env".data], ["python".data],
          ["-i".data, "-c".data, "blue = \"1\"".data]].flatten := by
  have hsplit : shlex_split "%e %p %a".data =
      some ["%e".data, "%p".data, "%a".data] := by decide
  have hspec : List.Forall₂
      (WordSpec [("e".data, TokVal.str "/usr/bin/env".data),
        ("p".data, TokVal.str "python".data),
        ("a".data, TokVal.list ["-i".data, "-c".data, "blue = \"1\"".data])])
      ["%e".data, "%p".data, "%a".data]
      [["/usr/bin/env".data], ["python".data],
        ["-i".data, "-c".data, "blue = \"1\"".data]] := by
    refine List.Forall₂.cons ?_ (List.Forall₂.cons ?_ (List.Forall₂.cons ?_
      List.Forall₂.nil))
    · exact WordSpec.strTok 'e' [] _ (by decide) (by decide) (by decide)
    · exact WordSpec.strTok 'p' [] _ (by decide) (by decide) (by decide)
    · exact WordSpec.listTok 'a' [] _ (by decide) (by decide) (by decide)
  exact ⟨hsplit, hspec,
    quote_and_substitute_word_boundaries _ _ _ _ hsplit hspec⟩

end Byexample
